import Mathlib

/-!
Verification of the `operadic_consistency` core against its specification.

The development shallowly embeds `core/transforms.py` and `core/metrics.py`.
The tree type (`core/toq_types.py`) and the report type (`core/consistency.py`)
are not part of the available sources, so they are modelled from the spec
(sections 3, 4.1 and 6): node identifiers become `Nat`, the Python `dict`
becomes an insertion-ordered association list with unique keys, and fallible
operations (which raise in Python) return `Option`/`Except`.
-/

/-- Modelled from the spec: `ToQNode` of the missing `core/toq_types.py`
(spec section 3): `{ id, text, parent }`, `parent = none` iff the node is the root. -/
structure ToQNode where
  id : Nat
  text : String
  parent : Option Nat
deriving DecidableEq

/-- Modelled from the spec: `ToQ` of the missing `core/toq_types.py`
(spec section 3). The Python `dict` of nodes is modelled as an
insertion-ordered association list; key uniqueness (a `dict` invariant)
is carried as a separate hypothesis `t.keys.Nodup` where needed. -/
structure ToQ where
  nodes : List (Nat × ToQNode)
  root_id : Nat
deriving DecidableEq

def ToQ.keys (t : ToQ) : List Nat := t.nodes.map Prod.fst

def ToQ.lookup (t : ToQ) (nid : Nat) : Option ToQNode := List.lookup nid t.nodes

/-- Ascending insertion sort, modelling Python's `sorted` on node ids. -/
def sortAsc (l : List Nat) : List Nat := List.insertionSort (· ≤ ·) l

/-- Keep one copy of every element (set semantics of a Python `set`). -/
def dedupNat : List Nat → List Nat
  | [] => []
  | x :: xs => if xs.contains x then dedupNat xs else x :: dedupNat xs

/-- Modelled from the spec: the derived `children()` mapping of the missing
`core/toq_types.py` (spec section 3): for each node id, the ordered-by-id
sequence of its direct children. -/
def ToQ.childrenOf (t : ToQ) (u : Nat) : List Nat :=
  sortAsc (t.nodes.filterMap fun kv => if kv.2.parent == some u then some kv.1 else none)

/-- Modelled from the spec: invariant 5 of `validate` (spec section 4.1):
following `parent` pointers from `cur` reaches `root_id` in a finite number
of steps.  Since `parent` is a function, a chain that reaches the root at all
reaches it within `|nodes|` steps, so the fuelled check with
fuel `|nodes| + 1` is equivalent to the spec's wording. -/
def reachesRoot (t : ToQ) : Nat → Nat → Bool
  | 0, _ => false
  | fuel + 1, cur =>
    if cur = t.root_id then true
    else
      match t.lookup cur with
      | none => false
      | some node =>
        match node.parent with
        | none => false
        | some p => reachesRoot t fuel p

/-- Modelled from the spec: `validate` of the missing `core/toq_types.py`
(spec section 4.1), checking invariants 1 to 5 of section 3. -/
def ToQ.validate (t : ToQ) : Bool :=
  t.keys.contains t.root_id &&
  (match t.lookup t.root_id with
   | some node => node.parent == none
   | none => false) &&
  (t.nodes.all fun kv =>
    kv.1 == t.root_id ||
    (match kv.2.parent with
     | some p => t.keys.contains p
     | none => false)) &&
  (t.nodes.all fun kv => reachesRoot t (t.nodes.length + 1) kv.1)

/-- Modelled from the spec: `OpenToQ` of the missing `core/toq_types.py`
(spec section 3). -/
structure OpenToQ where
  toq : ToQ
  inputs : List Nat
  root_id : Nat
deriving DecidableEq

/-- `CollapsePlan` from `core/transforms.py`. -/
structure CollapsePlan where
  cut_edges : List Nat
deriving DecidableEq

/-- `itertools.combinations` over a list: all length-`r` subsequences, in the
lexicographic order of input positions. -/
def combinations : Nat → List Nat → List (List Nat)
  | 0, _ => [[]]
  | _ + 1, [] => []
  | r + 1, x :: xs => (combinations r xs).map (fun s => x :: s) ++ combinations (r + 1) xs

/-- The plan sequence produced by `enumerate_collapse_plans`: for `r` from
`0` to `k` (skipping `r = 0` when the empty plan is excluded), every
`r`-combination of the non-root node ids, each sorted ascending.  The edges
are taken in the iteration order of the `nodes` mapping, as in the source's
`for nid in toq.nodes`. -/
def planSeq (t : ToQ) (include_empty : Bool) : List CollapsePlan :=
  let edges := t.keys.filter fun nid => !(nid == t.root_id)
  ((List.range (edges.length + 1)).filter
      (fun r => !(r == 0 && !include_empty))).flatMap
    fun r => (combinations r edges).map fun s => ⟨sortAsc s⟩

/-- `enumerate_collapse_plans` from `core/transforms.py`.  `none` models the
exception raised by `toq.validate()` on an invalid tree. -/
def enumerate_collapse_plans (t : ToQ) (include_empty : Bool) : Option (List CollapsePlan) :=
  if t.validate then some (planSeq t include_empty) else none

/-- `component_roots` from `core/transforms.py`:
`sorted(set(plan.cut_edges) | {toq.root_id})`. -/
def component_roots (t : ToQ) (plan : CollapsePlan) : List Nat :=
  sortAsc (dedupNat (t.root_id :: plan.cut_edges))

/-- The body of the `while True` walk of `_component_root` in
`core/transforms.py`, with explicit fuel bounding the number of iterations.
`none` models either a `KeyError` or a walk that does not terminate. -/
def componentRootAux (t : ToQ) (cut : List Nat) : Nat → Nat → Option Nat
  | 0, _ => none
  | fuel + 1, cur =>
    match t.lookup cur with
    | none => none
    | some node =>
      match node.parent with
      | none => some cur
      | some p => if cut.contains cur then some cur else componentRootAux t cut fuel p

/-- `_component_root` from `core/transforms.py`.  On a validated tree the
walk terminates within `|nodes|` steps, so fuel `|nodes| + 1` is exact. -/
def _component_root (t : ToQ) (nid : Nat) (cut : List Nat) : Option Nat :=
  componentRootAux t cut (t.nodes.length + 1) nid

/-- Proof-side relation: the upward walk of `_component_root` from `v`
terminates (with some amount of fuel) and returns `r`. -/
def CompRootRel (t : ToQ) (cut : List Nat) (v r : Nat) : Prop :=
  ∃ f, componentRootAux t cut f v = some r

/-- The `while stack` worklist loop of `extract_open_toq` in
`core/transforms.py`, with explicit fuel bounding the number of iterations.
State: stack of nodes to visit, accumulated internal set, accumulated
frontier set (both sets modelled as lists). -/
def extractLoop (t : ToQ) (cut : List Nat) :
    Nat → List Nat → List Nat → List Nat → List Nat × List Nat
  | 0, _, internal, frontier => (internal, frontier)
  | fuel + 1, stack, internal, frontier =>
    match stack with
    | [] => (internal, frontier)
    | u :: rest =>
      if internal.contains u then extractLoop t cut fuel rest internal frontier
      else
        extractLoop t cut fuel
          (((t.childrenOf u).filter fun v => !cut.contains v) ++ rest)
          (u :: internal)
          (frontier ++ (t.childrenOf u).filter fun v => cut.contains v)

/-- The worklist run of `extract_open_toq` starting from `root`: fuel
`(|nodes| + 1)^2` strictly dominates the loop's iteration count, which is
bounded by (number of distinct internal adds) x (children pushed each). -/
def extractRun (t : ToQ) (cut : List Nat) (root : Nat) : List Nat × List Nat :=
  extractLoop t cut ((t.nodes.length + 1) * (t.nodes.length + 1)) [root] [] []

/-- One entry of the induced node table built by `extract_open_toq`:
keep `id` and `text`, set `parent = none` when the original parent is not
internal.  `none` models the `KeyError` on `toq.nodes[nid]`. -/
def extractNode (t : ToQ) (internal : List Nat) (nid : Nat) : Option (Nat × ToQNode) :=
  (t.lookup nid).map fun node =>
    (nid, ⟨nid, node.text,
      match node.parent with
      | some p => if internal.contains p then some p else none
      | none => none⟩)

/-- Total variant of the node built by `extractNode` (value irrelevant when
the lookup fails, in which case `extractNode` is `none`). -/
def extractNodeD (t : ToQ) (internal : List Nat) (nid : Nat) : ToQNode :=
  match t.lookup nid with
  | some node =>
    ⟨nid, node.text,
      match node.parent with
      | some p => if internal.contains p then some p else none
      | none => none⟩
  | none => ⟨nid, "", none⟩

/-- Build an association list from a list of keys, propagating a lookup
failure (Python's `KeyError`) as `none`. -/
def buildNodeList (f : Nat → Option (Nat × ToQNode)) : List Nat → Option (List (Nat × ToQNode))
  | [] => some []
  | x :: xs =>
    match f x, buildNodeList f xs with
    | some y, some ys => some (y :: ys)
    | _, _ => none

/-- `extract_open_toq` from `core/transforms.py`.  `none` models any raised
exception (invalid input tree, `KeyError`, or the self-check `validate` on
the constructed tree failing). -/
def extract_open_toq (t : ToQ) (plan : CollapsePlan) (root : Nat) : Option OpenToQ :=
  if !t.validate then none
  else
    let cut := plan.cut_edges
    let res := extractRun t cut root
    match buildNodeList (extractNode t res.1) res.1 with
    | none => none
    | some new_nodes =>
      let ot : ToQ := ⟨new_nodes, root⟩
      if ot.validate then some ⟨ot, sortAsc (dedupNat res.2), root⟩ else none

/-- Error kinds of the core, named as in the spec (section 7); the Python
source raises `ValueError` with distinguishing messages. -/
inductive CollapseError where
  | treeError
  | invalidCut
  | missingCollapsedQuestion
deriving DecidableEq

/-- `CollapsedToQ` from `core/transforms.py`. -/
structure CollapsedToQ where
  toq : ToQ
  plan : CollapsePlan
  removed_nodes : List Nat
  collapsed_question_by_root : List (Nat × String)
  component_roots : List Nat
  open_toq_by_root : Option (List (Nat × OpenToQ)) := none
deriving DecidableEq

/-- The rewired parent of quotient node `r` in `apply_collapse_plan`:
`none` for the global root, otherwise `_component_root` of the original
parent.  The inner fallback arms are unreachable under the guards of
`apply_collapse_plan` on a validated tree. -/
def quotParent (t : ToQ) (cut : List Nat) (r : Nat) : Option Nat :=
  if r == t.root_id then none
  else
    match t.lookup r with
    | some node =>
      match node.parent with
      | some p =>
        match componentRootAux t cut (t.nodes.length + 1) p with
        | some q => some q
        | none => some p
      | none => none
    | none => none

/-- The quotient node table of `apply_collapse_plan`: one node per component
root, text replaced by the supplied collapsed question. -/
def quotientNodes (t : ToQ) (plan : CollapsePlan) (cqbr : List (Nat × String)) :
    List (Nat × ToQNode) :=
  (component_roots t plan).map fun r =>
    (r, ⟨r, (List.lookup r cqbr).getD "", quotParent t plan.cut_edges r⟩)

/-- `removed_nodes` of `apply_collapse_plan`: original keys minus roots. -/
def removedNodes (t : ToQ) (plan : CollapsePlan) : List Nat :=
  t.keys.filter fun k => !(component_roots t plan).contains k

/-- `apply_collapse_plan` from `core/transforms.py`. -/
def apply_collapse_plan (t : ToQ) (plan : CollapsePlan) (cqbr : List (Nat × String)) :
    Except CollapseError CollapsedToQ :=
  if !t.validate then .error .treeError
  else
    let cut := plan.cut_edges
    if cut.contains t.root_id then .error .invalidCut
    else if cut.any fun c => !t.keys.contains c then .error .invalidCut
    else if cut.any (fun c =>
        match t.lookup c with
        | some node => node.parent == none
        | none => true) then .error .invalidCut
    else if (component_roots t plan).any (fun r => (List.lookup r cqbr).isNone) then
      .error .missingCollapsedQuestion
    else
      let new_toq : ToQ := ⟨quotientNodes t plan cqbr, t.root_id⟩
      if new_toq.validate then
        .ok ⟨new_toq, plan, removedNodes t plan, cqbr, component_roots t plan, none⟩
      else .error .treeError

/-- `Answer` of the interface layer: at minimum the response text
(spec section 6). -/
structure Answer where
  text : String
deriving DecidableEq

/-- Modelled from the spec: one run record of the missing
`core/consistency.py`, as consumed by `core/metrics.py`: the plan that
produced it, the root answer, and an optional normalized key. -/
structure ConsistencyRun where
  plan : CollapsePlan
  root_answer : Answer
  normalized_root : Option String
deriving DecidableEq

/-- Modelled from the spec: `ConsistencyReport` of the missing
`core/consistency.py`: the list of runs. -/
structure ConsistencyReport where
  runs : List ConsistencyRun
deriving DecidableEq

def _answer_key (text : String) : String := text

/-- The per-run key selection of `answer_distribution` in `core/metrics.py`. -/
def runKey (use_normalized : Bool) (r : ConsistencyRun) : String :=
  match use_normalized, r.normalized_root with
  | true, some s => s
  | _, _ => _answer_key r.root_answer.text

/-- Distinct keys in first-occurrence order (the key order of a Python
`Counter`). -/
def firstKeys : List String → List String
  | [] => []
  | x :: xs => x :: firstKeys (xs.filter fun y => !(y == x))
termination_by l => l.length
decreasing_by
  simp only [List.length_cons]
  exact Nat.lt_succ_of_le (List.length_filter_le _ _)

/-- `answer_distribution` from `core/metrics.py`: histogram of root answers
across runs, as a `Counter`-style association list. -/
def answer_distribution (report : ConsistencyReport) (use_normalized : Bool) :
    List (String × Nat) :=
  let keys := report.runs.map (runKey use_normalized)
  (firstKeys keys).map fun k => (k, keys.count k)

/-- `agreement_rate` from `core/metrics.py`.  The Python `float` division of
the two counts is modelled as exact rational division. -/
def agreement_rate (report : ConsistencyReport) (use_normalized : Bool) : Rat :=
  let dist := answer_distribution report use_normalized
  let n := (dist.map Prod.snd).sum
  if n == 0 then 0
  else (((dist.map Prod.snd).foldr Nat.max 0 : Nat) : Rat) / (n : Rat)

/-- Claim-side definition, following the spec's words for section 4.2 only
(for the refinement comparison of the enumeration order): edges taken in
ascending order of node id. -/
def enumerateSpecOrdered (t : ToQ) (include_empty : Bool) : List CollapsePlan :=
  let edges := sortAsc (t.keys.filter fun nid => !(nid == t.root_id))
  ((List.range (edges.length + 1)).filter (fun r => !(r == 0 && !include_empty))).flatMap
    fun r => (combinations r edges).map fun s => ⟨sortAsc s⟩

/-- Spec section 4.4: `v` is reachable from `root` by descending child edges
without crossing a cut edge. -/
inductive ReachNoCut (t : ToQ) (cut : List Nat) (root : Nat) : Nat → Prop
  | refl : ReachNoCut t cut root root
  | step {u v : Nat} : ReachNoCut t cut root u → v ∈ t.childrenOf u → v ∉ cut →
      ReachNoCut t cut root v

/-- Concrete three-node chain `0 -> 1 -> 2` (spec section 8, Scenario A),
used as a concrete evaluation input. -/
def chain0 : ToQ :=
  ⟨[(0, ⟨0, "r", none⟩), (1, ⟨1, "a", some 0⟩), (2, ⟨2, "b", some 1⟩)], 0⟩

/-! ### List utilities -/

theorem contains_iff {l : List Nat} {a : Nat} : l.contains a = true ↔ a ∈ l := by
  simp

theorem sortAsc_perm (l : List Nat) : (sortAsc l).Perm l :=
  List.perm_insertionSort _ l

theorem mem_sortAsc {l : List Nat} {a : Nat} : a ∈ sortAsc l ↔ a ∈ l :=
  (sortAsc_perm l).mem_iff

theorem sortAsc_length (l : List Nat) : (sortAsc l).length = l.length :=
  (sortAsc_perm l).length_eq

theorem sortAsc_nodup {l : List Nat} (h : l.Nodup) : (sortAsc l).Nodup :=
  ((sortAsc_perm l).nodup_iff).mpr h

theorem sortAsc_sorted (l : List Nat) : List.Sorted (· ≤ ·) (sortAsc l) :=
  List.sorted_insertionSort _ l

theorem sortAsc_sorted_lt {l : List Nat} (h : l.Nodup) :
    List.Sorted (· < ·) (sortAsc l) := by
  have h1 : List.Pairwise (· ≤ ·) (sortAsc l) := sortAsc_sorted l
  have h2 : List.Pairwise (· ≠ ·) (sortAsc l) := sortAsc_nodup h
  exact (h1.and h2).imp (fun hab => lt_of_le_of_ne hab.1 hab.2)

theorem sortAsc_eq_self {l : List Nat} (h : List.Sorted (· ≤ ·) l) : sortAsc l = l :=
  List.Sorted.insertionSort_eq h

theorem dedupNat_cons_of_mem {x : Nat} {xs : List Nat} (h : x ∈ xs) :
    dedupNat (x :: xs) = dedupNat xs := by
  simp [dedupNat, h]

theorem dedupNat_cons_of_not_mem {x : Nat} {xs : List Nat} (h : x ∉ xs) :
    dedupNat (x :: xs) = x :: dedupNat xs := by
  simp [dedupNat, h]

theorem mem_dedupNat {l : List Nat} {a : Nat} : a ∈ dedupNat l ↔ a ∈ l := by
  induction l with
  | nil => simp [dedupNat]
  | cons x xs ih =>
    by_cases hx : x ∈ xs
    · rw [dedupNat_cons_of_mem hx, ih, List.mem_cons]
      constructor
      · exact Or.inr
      · rintro (rfl | h)
        · exact hx
        · exact h
    · rw [dedupNat_cons_of_not_mem hx]
      simp [ih]

theorem nodup_dedupNat (l : List Nat) : (dedupNat l).Nodup := by
  induction l with
  | nil => simp [dedupNat]
  | cons x xs ih =>
    by_cases hx : x ∈ xs
    · rw [dedupNat_cons_of_mem hx]
      exact ih
    · rw [dedupNat_cons_of_not_mem hx, List.nodup_cons]
      exact ⟨fun hmem => hx (mem_dedupNat.mp hmem), ih⟩

theorem lookup_cons {α : Type} [DecidableEq α] {β : Type} (a k : α) (b : β) (l : List (α × β)) :
    List.lookup a ((k, b) :: l) = if a = k then some b else List.lookup a l := by
  by_cases h : a = k
  · subst h
    simp [List.lookup]
  · have hb : (a == k) = false := beq_eq_false_iff_ne.mpr h
    simp [List.lookup, hb, h]

theorem lookup_mem {α : Type} [DecidableEq α] {β : Type} {l : List (α × β)} {a : α} {b : β}
    (h : List.lookup a l = some b) : (a, b) ∈ l := by
  induction l with
  | nil => simp [List.lookup] at h
  | cons kv rest ih =>
    obtain ⟨k, v⟩ := kv
    rw [lookup_cons] at h
    by_cases hk : a = k
    · rw [if_pos hk] at h
      cases h
      subst hk
      exact List.mem_cons_self _ _
    · rw [if_neg hk] at h
      exact List.mem_cons_of_mem _ (ih h)

theorem mem_keys_of_lookup {α : Type} [DecidableEq α] {β : Type} {l : List (α × β)} {a : α}
    {b : β} (h : List.lookup a l = some b) : a ∈ l.map Prod.fst := by
  have := lookup_mem h
  exact List.mem_map.mpr ⟨(a, b), this, rfl⟩

theorem lookup_isSome_of_mem {α : Type} [DecidableEq α] {β : Type} {l : List (α × β)} {a : α}
    (h : a ∈ l.map Prod.fst) : ∃ b, List.lookup a l = some b := by
  induction l with
  | nil => simp at h
  | cons kv rest ih =>
    obtain ⟨k, v⟩ := kv
    by_cases hk : a = k
    · subst hk
      exact ⟨v, by rw [lookup_cons, if_pos rfl]⟩
    · simp only [List.map_cons, List.mem_cons] at h
      rcases h with h | h
      · exact absurd h hk
      · obtain ⟨b, hb⟩ := ih h
        exact ⟨b, by rw [lookup_cons, if_neg hk]; exact hb⟩

theorem lookup_of_mem_nodup {α : Type} [DecidableEq α] {β : Type} {l : List (α × β)} {a : α}
    {b : β} (hnd : (l.map Prod.fst).Nodup) (h : (a, b) ∈ l) : List.lookup a l = some b := by
  induction l with
  | nil => simp at h
  | cons kv rest ih =>
    obtain ⟨k, v⟩ := kv
    simp only [List.map_cons, List.nodup_cons] at hnd
    rcases List.mem_cons.mp h with h2 | h2
    · cases h2
      rw [lookup_cons, if_pos rfl]
    · have hk : a ≠ k := by
        rintro rfl
        exact hnd.1 (List.mem_map.mpr ⟨(a, b), h2, rfl⟩)
      rw [lookup_cons, if_neg hk]
      exact ih hnd.2 h2

theorem lookup_map_self {L : List Nat} {g : Nat → ToQNode} {v : Nat} :
    List.lookup v (L.map fun n => (n, g n)) = if v ∈ L then some (g v) else none := by
  induction L with
  | nil => simp [List.lookup]
  | cons x xs ih =>
    by_cases hx : v = x
    · subst hx
      simp [List.map_cons, lookup_cons]
    · rw [List.map_cons, lookup_cons, if_neg hx]
      simp only [ih, List.mem_cons]
      by_cases hmem : v ∈ xs
      · rw [if_pos hmem, if_pos (Or.inr hmem)]
      · rw [if_neg hmem, if_neg (by tauto)]

/-! ### Basic facts about the tree model -/

theorem keys_length (t : ToQ) : t.keys.length = t.nodes.length := by
  simp [ToQ.keys]

theorem mem_keys_iff {t : ToQ} {v : Nat} : v ∈ t.keys ↔ ∃ node, (v, node) ∈ t.nodes := by
  constructor
  · intro h
    obtain ⟨kv, hkv, hfst⟩ := List.mem_map.mp h
    exact ⟨kv.2, by rwa [show (v, kv.2) = kv from by rw [← hfst]]⟩
  · rintro ⟨node, h⟩
    exact List.mem_map.mpr ⟨(v, node), h, rfl⟩

theorem lookup_some_of_mem_keys {t : ToQ} {v : Nat} (h : v ∈ t.keys) :
    ∃ node, t.lookup v = some node :=
  lookup_isSome_of_mem h

theorem mem_keys_of_lookup_some {t : ToQ} {v : Nat} {node : ToQNode}
    (h : t.lookup v = some node) : v ∈ t.keys :=
  mem_keys_of_lookup h

theorem mem_childrenOf {t : ToQ} {u v : Nat} :
    v ∈ t.childrenOf u ↔ ∃ node, (v, node) ∈ t.nodes ∧ node.parent = some u := by
  rw [ToQ.childrenOf, mem_sortAsc, List.mem_filterMap]
  constructor
  · rintro ⟨⟨k, node⟩, hkv, hif⟩
    by_cases hp : node.parent == some u
    · rw [if_pos hp] at hif
      cases hif
      exact ⟨node, hkv, beq_iff_eq.mp hp⟩
    · rw [if_neg hp] at hif
      cases hif
  · rintro ⟨node, hmem, hp⟩
    exact ⟨(v, node), hmem, by rw [if_pos (by simpa using hp)]⟩

theorem mem_childrenOf_lookup {t : ToQ} (hnd : t.keys.Nodup) {u v : Nat} :
    v ∈ t.childrenOf u ↔ ∃ node, t.lookup v = some node ∧ node.parent = some u := by
  rw [mem_childrenOf]
  constructor
  · rintro ⟨node, hmem, hp⟩
    exact ⟨node, lookup_of_mem_nodup hnd hmem, hp⟩
  · rintro ⟨node, hl, hp⟩
    exact ⟨node, lookup_mem hl, hp⟩

theorem childrenOf_length_le (t : ToQ) (u : Nat) :
    (t.childrenOf u).length ≤ t.nodes.length := by
  rw [ToQ.childrenOf, sortAsc_length]
  exact List.length_filterMap_le _ _

theorem childrenOf_mem_keys {t : ToQ} {u v : Nat} (h : v ∈ t.childrenOf u) : v ∈ t.keys := by
  obtain ⟨node, hmem, _⟩ := mem_childrenOf.mp h
  exact mem_keys_iff.mpr ⟨node, hmem⟩

/-! ### Projections of `validate` -/

theorem validate_root_mem {t : ToQ} (h : t.validate = true) : t.root_id ∈ t.keys := by
  rw [ToQ.validate] at h
  simp only [Bool.and_eq_true] at h
  exact contains_iff.mp h.1.1.1

theorem validate_root_parent {t : ToQ} (h : t.validate = true) :
    ∃ node, t.lookup t.root_id = some node ∧ node.parent = none := by
  rw [ToQ.validate] at h
  simp only [Bool.and_eq_true] at h
  have h2 := h.1.1.2
  cases hl : t.lookup t.root_id with
  | none => rw [hl] at h2; cases h2
  | some node =>
    rw [hl] at h2
    exact ⟨node, rfl, by simpa using h2⟩

theorem validate_parent_of_entry {t : ToQ} (h : t.validate = true) {v : Nat} {node : ToQNode}
    (hmem : (v, node) ∈ t.nodes) (hv : v ≠ t.root_id) :
    ∃ p, node.parent = some p ∧ p ∈ t.keys := by
  rw [ToQ.validate] at h
  simp only [Bool.and_eq_true] at h
  have h3 := List.all_eq_true.mp h.1.2 _ hmem
  simp only [Bool.or_eq_true, beq_iff_eq] at h3
  rcases h3 with h3 | h3
  · exact absurd h3 hv
  · cases hp : node.parent with
    | none => rw [hp] at h3; cases h3
    | some p =>
      rw [hp] at h3
      exact ⟨p, rfl, contains_iff.mp h3⟩

theorem validate_parent {t : ToQ} (h : t.validate = true) {v : Nat} {node : ToQNode}
    (hl : t.lookup v = some node) (hv : v ≠ t.root_id) :
    ∃ p, node.parent = some p ∧ p ∈ t.keys :=
  validate_parent_of_entry h (lookup_mem hl) hv

theorem validate_root_of_parent_none {t : ToQ} (h : t.validate = true) {v : Nat}
    {node : ToQNode} (hl : t.lookup v = some node) (hp : node.parent = none) :
    v = t.root_id := by
  by_contra hv
  obtain ⟨p, hps, _⟩ := validate_parent h hl hv
  rw [hp] at hps
  cases hps

theorem validate_reaches {t : ToQ} (h : t.validate = true) {v : Nat} (hv : v ∈ t.keys) :
    reachesRoot t (t.nodes.length + 1) v = true := by
  rw [ToQ.validate] at h
  simp only [Bool.and_eq_true] at h
  obtain ⟨node, hmem⟩ := mem_keys_iff.mp hv
  exact List.all_eq_true.mp h.2 _ hmem

theorem validate_not_root_parent_some {t : ToQ} (h : t.validate = true) {v : Nat}
    {node : ToQNode} (hl : t.lookup v = some node) {p : Nat} (hp : node.parent = some p) :
    v ≠ t.root_id := by
  intro hv
  subst hv
  obtain ⟨node2, hl2, hp2⟩ := validate_root_parent h
  rw [hl] at hl2
  cases hl2
  rw [hp] at hp2
  cases hp2

/-! ### `reachesRoot` -/

theorem reach_zero {t : ToQ} {v : Nat} : reachesRoot t 0 v = false := rfl

theorem reach_succ_root {t : ToQ} {fuel : Nat} :
    reachesRoot t (fuel + 1) t.root_id = true := by
  simp [reachesRoot]

theorem reach_succ_none {t : ToQ} {fuel cur : Nat} (hc : cur ≠ t.root_id)
    (hl : t.lookup cur = none) : reachesRoot t (fuel + 1) cur = false := by
  simp [reachesRoot, hc, hl]

theorem reach_succ_pnone {t : ToQ} {fuel cur : Nat} {node : ToQNode} (hc : cur ≠ t.root_id)
    (hl : t.lookup cur = some node) (hp : node.parent = none) :
    reachesRoot t (fuel + 1) cur = false := by
  simp [reachesRoot, hc, hl, hp]

theorem reach_succ_step {t : ToQ} {fuel cur : Nat} {node : ToQNode} {p : Nat}
    (hc : cur ≠ t.root_id) (hl : t.lookup cur = some node) (hp : node.parent = some p) :
    reachesRoot t (fuel + 1) cur = reachesRoot t fuel p := by
  simp [reachesRoot, hc, hl, hp]

theorem reach_succ_iff {t : ToQ} {fuel : Nat} {cur : Nat} :
    reachesRoot t (fuel + 1) cur = true ↔
      cur = t.root_id ∨
      (cur ≠ t.root_id ∧ ∃ node p, t.lookup cur = some node ∧ node.parent = some p ∧
        reachesRoot t fuel p = true) := by
  by_cases hc : cur = t.root_id
  · subst hc
    simp [reach_succ_root]
  · constructor
    · intro h
      refine Or.inr ⟨hc, ?_⟩
      cases hl : t.lookup cur with
      | none => rw [reach_succ_none hc hl] at h; cases h
      | some node =>
        cases hp : node.parent with
        | none => rw [reach_succ_pnone hc hl hp] at h; cases h
        | some p =>
          rw [reach_succ_step hc hl hp] at h
          exact ⟨node, p, rfl, hp, h⟩
    · rintro (h | ⟨_, node, p, hl, hp, hr⟩)
      · exact absurd h hc
      · rw [reach_succ_step hc hl hp]
        exact hr

theorem reach_mono {t : ToQ} {f g : Nat} {v : Nat} (h : reachesRoot t f v = true)
    (hfg : f ≤ g) : reachesRoot t g v = true := by
  induction f generalizing v g with
  | zero => cases h
  | succ f ih =>
    obtain ⟨g2, rfl⟩ : ∃ g2, g = g2 + 1 := ⟨g - 1, by omega⟩
    rcases reach_succ_iff.mp h with hr | ⟨hne, node, p, hl, hp, hr⟩
    · exact reach_succ_iff.mpr (Or.inl hr)
    · exact reach_succ_iff.mpr (Or.inr ⟨hne, node, p, hl, hp, ih hr (by omega)⟩)

/-! ### The `_component_root` walk -/

theorem aux_zero {t : ToQ} {cut : List Nat} {v : Nat} :
    componentRootAux t cut 0 v = none := rfl

theorem aux_none {t : ToQ} {cut : List Nat} {fuel cur : Nat} (hl : t.lookup cur = none) :
    componentRootAux t cut (fuel + 1) cur = none := by
  simp [componentRootAux, hl]

theorem aux_pnone {t : ToQ} {cut : List Nat} {fuel cur : Nat} {node : ToQNode}
    (hl : t.lookup cur = some node) (hp : node.parent = none) :
    componentRootAux t cut (fuel + 1) cur = some cur := by
  simp [componentRootAux, hl, hp]

theorem aux_cut {t : ToQ} {cut : List Nat} {fuel cur : Nat} {node : ToQNode} {p : Nat}
    (hl : t.lookup cur = some node) (hp : node.parent = some p) (hc : cur ∈ cut) :
    componentRootAux t cut (fuel + 1) cur = some cur := by
  simp [componentRootAux, hl, hp, hc]

theorem aux_step {t : ToQ} {cut : List Nat} {fuel cur : Nat} {node : ToQNode} {p : Nat}
    (hl : t.lookup cur = some node) (hp : node.parent = some p) (hc : cur ∉ cut) :
    componentRootAux t cut (fuel + 1) cur = componentRootAux t cut fuel p := by
  simp [componentRootAux, hl, hp, hc]

theorem aux_mono {t : ToQ} {cut : List Nat} {f g : Nat} {v r : Nat}
    (h : componentRootAux t cut f v = some r) (hfg : f ≤ g) :
    componentRootAux t cut g v = some r := by
  induction f generalizing v g with
  | zero => rw [aux_zero] at h; cases h
  | succ f ih =>
    obtain ⟨g2, rfl⟩ : ∃ g2, g = g2 + 1 := ⟨g - 1, by omega⟩
    cases hl : t.lookup v with
    | none => rw [aux_none hl] at h; cases h
    | some node =>
      cases hp : node.parent with
      | none =>
        rw [aux_pnone hl hp] at h
        rw [aux_pnone hl hp]
        exact h
      | some p =>
        by_cases hc : v ∈ cut
        · rw [aux_cut hl hp hc] at h
          rw [aux_cut hl hp hc]
          exact h
        · rw [aux_step hl hp hc] at h
          rw [aux_step hl hp hc]
          exact ih h (by omega)

theorem rel_unique {t : ToQ} {cut : List Nat} {v r1 r2 : Nat}
    (h1 : CompRootRel t cut v r1) (h2 : CompRootRel t cut v r2) : r1 = r2 := by
  obtain ⟨f1, h1⟩ := h1
  obtain ⟨f2, h2⟩ := h2
  have e1 := aux_mono h1 (Nat.le_max_left f1 f2)
  have e2 := aux_mono h2 (Nat.le_max_right f1 f2)
  rw [e1] at e2
  cases e2
  rfl

theorem rel_step_down {t : ToQ} {cut : List Nat} {v p r : Nat} {node : ToQNode}
    (hl : t.lookup v = some node) (hp : node.parent = some p) (hc : v ∉ cut)
    (h : CompRootRel t cut p r) : CompRootRel t cut v r := by
  obtain ⟨f, h⟩ := h
  exact ⟨f + 1, by rw [aux_step hl hp hc]; exact h⟩

theorem rel_destruct {t : ToQ} {cut : List Nat} {v r : Nat} (h : CompRootRel t cut v r)
    (hne : v ≠ r) :
    ∃ node p, t.lookup v = some node ∧ node.parent = some p ∧ v ∉ cut ∧
      CompRootRel t cut p r := by
  obtain ⟨f, h⟩ := h
  induction f with
  | zero => rw [aux_zero] at h; cases h
  | succ f _ =>
    cases hl : t.lookup v with
    | none => rw [aux_none hl] at h; cases h
    | some node =>
      cases hp : node.parent with
      | none =>
        rw [aux_pnone hl hp] at h
        cases h
        exact absurd rfl hne
      | some p =>
        by_cases hc : v ∈ cut
        · rw [aux_cut hl hp hc] at h
          cases h
          exact absurd rfl hne
        · rw [aux_step hl hp hc] at h
          exact ⟨node, p, rfl, hp, hc, f, h⟩

theorem rel_self_of_cut {t : ToQ} {cut : List Nat} {r : Nat} {node : ToQNode}
    (hl : t.lookup r = some node) (hc : r ∈ cut) : CompRootRel t cut r r := by
  cases hp : node.parent with
  | none => exact ⟨1, aux_pnone hl hp⟩
  | some p => exact ⟨1, aux_cut hl hp hc⟩

theorem rel_self_of_pnone {t : ToQ} {cut : List Nat} {r : Nat} {node : ToQNode}
    (hl : t.lookup r = some node) (hp : node.parent = none) : CompRootRel t cut r r :=
  ⟨1, aux_pnone hl hp⟩

theorem aux_result {t : ToQ} {cut : List Nat} {f v r : Nat}
    (h : componentRootAux t cut f v = some r) :
    r ∈ t.keys ∧ (r ∈ cut ∨ ∃ node, t.lookup r = some node ∧ node.parent = none) := by
  induction f generalizing v with
  | zero => rw [aux_zero] at h; cases h
  | succ f ih =>
    cases hl : t.lookup v with
    | none => rw [aux_none hl] at h; cases h
    | some node =>
      cases hp : node.parent with
      | none =>
        rw [aux_pnone hl hp] at h
        cases h
        exact ⟨mem_keys_of_lookup_some hl, Or.inr ⟨node, hl, hp⟩⟩
      | some p =>
        by_cases hc : v ∈ cut
        · rw [aux_cut hl hp hc] at h
          cases h
          exact ⟨mem_keys_of_lookup_some hl, Or.inl hc⟩
        · rw [aux_step hl hp hc] at h
          exact ih h

theorem aux_isSome_of_reach {t : ToQ} {cut : List Nat} (hval : t.validate = true)
    {f v : Nat} (hr : reachesRoot t f v = true) :
    ∃ x, componentRootAux t cut f v = some x := by
  induction f generalizing v with
  | zero => cases hr
  | succ f ih =>
    by_cases hc : v = t.root_id
    · subst hc
      obtain ⟨node, hl, hp⟩ := validate_root_parent hval
      exact ⟨t.root_id, aux_pnone hl hp⟩
    · rcases reach_succ_iff.mp hr with h | ⟨_, node, p, hl, hp, hrp⟩
      · exact absurd h hc
      · by_cases hcut : v ∈ cut
        · exact ⟨v, aux_cut hl hp hcut⟩
        · obtain ⟨x, hx⟩ := ih hrp
          exact ⟨x, by rw [aux_step hl hp hcut]; exact hx⟩

theorem comp_terminates {t : ToQ} {cut : List Nat} (hval : t.validate = true) {v : Nat}
    (hv : v ∈ t.keys) : ∃ x, _component_root t v cut = some x := by
  rw [_component_root]
  exact aux_isSome_of_reach hval (validate_reaches hval hv)

/-! ### Minimal reach fuel and acyclicity -/

theorem find_irrel {p : Nat → Prop} [DecidablePred p] (h1 h2 : ∃ n, p n) :
    Nat.find h1 = Nat.find h2 :=
  le_antisymm (Nat.find_min' h1 (Nat.find_spec h2)) (Nat.find_min' h2 (Nat.find_spec h1))

theorem minReach_parent_lt {t : ToQ} (hval : t.validate = true) {v p : Nat}
    {node : ToQNode} (hl : t.lookup v = some node) (hp : node.parent = some p)
    (hev : ∃ f, reachesRoot t f v = true) (hep : ∃ f, reachesRoot t f p = true) :
    Nat.find hep < Nat.find hev := by
  have hv := Nat.find_spec hev
  have hvr : v ≠ t.root_id := validate_not_root_parent_some hval hl hp
  obtain ⟨m, hm⟩ : ∃ m, Nat.find hev = m + 1 := by
    cases hfind : Nat.find hev with
    | zero => rw [hfind] at hv; cases hv
    | succ m => exact ⟨m, rfl⟩
  rw [hm] at hv
  rw [reach_succ_step hvr hl hp] at hv
  have := Nat.find_min' hep hv
  omega

theorem walk_minReach_le {t : ToQ} {cut : List Nat} (hval : t.validate = true)
    {g q x : Nat} (h : componentRootAux t cut g q = some x)
    (heq : ∃ f, reachesRoot t f q = true) (hex : ∃ f, reachesRoot t f x = true) :
    Nat.find hex ≤ Nat.find heq := by
  induction g generalizing q with
  | zero => rw [aux_zero] at h; cases h
  | succ g ih =>
    cases hl : t.lookup q with
    | none => rw [aux_none hl] at h; cases h
    | some node =>
      cases hp : node.parent with
      | none =>
        rw [aux_pnone hl hp] at h
        cases h
        exact le_of_eq (find_irrel hex heq)
      | some p =>
        by_cases hc : q ∈ cut
        · rw [aux_cut hl hp hc] at h
          cases h
          exact le_of_eq (find_irrel hex heq)
        · rw [aux_step hl hp hc] at h
          have hq : q ≠ t.root_id := validate_not_root_parent_some hval hl hp
          have hep : ∃ f, reachesRoot t f p = true := by
            obtain ⟨pn, hpn, hpe⟩ := validate_parent hval hl hq
            rw [hpn] at hp
            cases hp
            exact ⟨t.nodes.length + 1, validate_reaches hval hpe⟩
          have h1 := ih h hep
          have h2 := minReach_parent_lt hval hl hp heq hep
          omega

theorem not_rel_parent {t : ToQ} {cut : List Nat} (hval : t.validate = true) {r p : Nat}
    {node : ToQNode} (hl : t.lookup r = some node) (hp : node.parent = some p)
    (hrel : CompRootRel t cut p r) : False := by
  obtain ⟨g, hg⟩ := hrel
  have hrne : r ≠ t.root_id := validate_not_root_parent_some hval hl hp
  have hpk : p ∈ t.keys := by
    obtain ⟨p2, hp2, hpe⟩ := validate_parent hval hl hrne
    rw [hp2] at hp
    cases hp
    exact hpe
  have her : ∃ f, reachesRoot t f r = true :=
    ⟨t.nodes.length + 1, validate_reaches hval (mem_keys_of_lookup_some hl)⟩
  have hep : ∃ f, reachesRoot t f p = true :=
    ⟨t.nodes.length + 1, validate_reaches hval hpk⟩
  have h1 := walk_minReach_le hval hg hep her
  have h2 := minReach_parent_lt hval hl hp her hep
  omega

/-! ### Generic bounded-reachability construction

For a tree `T` whose nodes of interest `S` carry a measure that strictly
decreases along parent steps, every node of `S` reaches the root of `T`
within `S.length` steps. -/

theorem reach_of_measure (T : ToQ) (S : List Nat) (mu : Nat → Nat)
    (hstep : ∀ v ∈ S, v = T.root_id ∨
      ∃ node p, T.lookup v = some node ∧ node.parent = some p ∧ p ∈ S ∧ mu p < mu v) :
    ∀ m v, v ∈ S → mu v ≤ m →
      ∃ L : List Nat, L.Nodup ∧ (∀ x ∈ L, x ∈ S) ∧ (∀ x ∈ L, mu x ≤ mu v) ∧
        1 ≤ L.length ∧ reachesRoot T L.length v = true := by
  intro m
  induction m using Nat.strong_induction_on with
  | _ m ih =>
    intro v hv hm
    rcases hstep v hv with hroot | ⟨node, p, hl, hp, hpS, hlt⟩
    · subst hroot
      refine ⟨[T.root_id], List.nodup_singleton _, ?_, ?_, by simp, reach_succ_root⟩
      · intro x hx
        rw [List.mem_singleton] at hx
        subst hx
        exact hv
      · intro x hx
        rw [List.mem_singleton] at hx
        subst hx
        exact le_refl _
    · have hmp : mu p ≤ m - 1 := by omega
      obtain ⟨L, hnd, hsub, hmu, hlen, hreach⟩ := ih (m - 1) (by omega) p hpS (by omega)
      refine ⟨v :: L, ?_, ?_, ?_, by simp, ?_⟩
      · rw [List.nodup_cons]
        refine ⟨fun hmem => ?_, hnd⟩
        have := hmu v hmem
        omega
      · intro x hx
        rcases List.mem_cons.mp hx with rfl | hx
        · exact hv
        · exact hsub x hx
      · intro x hx
        rcases List.mem_cons.mp hx with rfl | hx
        · exact le_refl _
        · have := hmu x hx
          omega
      · by_cases hvr : v = T.root_id
        · subst hvr
          rw [List.length_cons]
          exact reach_succ_root
        · rw [List.length_cons]
          rw [reach_succ_step hvr hl hp]
          exact hreach

theorem reach_all_of_measure (T : ToQ) (S : List Nat) (mu : Nat → Nat)
    (hstep : ∀ v ∈ S, v = T.root_id ∨
      ∃ node p, T.lookup v = some node ∧ node.parent = some p ∧ p ∈ S ∧ mu p < mu v) :
    ∀ v ∈ S, reachesRoot T (S.length + 1) v = true := by
  intro v hv
  obtain ⟨L, hLnd, hsub, _, _, hreach⟩ :=
    reach_of_measure T S mu hstep (mu v) v hv (le_refl _)
  have hlen : L.length ≤ S.length :=
    (List.Nodup.subperm hLnd (fun x hx => hsub x hx)).length_le
  exact reach_mono hreach (by omega)

/-! ### The extraction worklist loop -/

theorem extractLoop_zero {t : ToQ} {cut S I F : List Nat} :
    extractLoop t cut 0 S I F = (I, F) := rfl

theorem extractLoop_nil {t : ToQ} {cut : List Nat} {fuel : Nat} {I F : List Nat} :
    extractLoop t cut (fuel + 1) [] I F = (I, F) := rfl

theorem extractLoop_cons_mem {t : ToQ} {cut : List Nat} {fuel : Nat} {u : Nat}
    {rest I F : List Nat} (hu : u ∈ I) :
    extractLoop t cut (fuel + 1) (u :: rest) I F = extractLoop t cut fuel rest I F := by
  have hc : I.contains u = true := contains_iff.mpr hu
  simp only [extractLoop, hc]
  simp

theorem extractLoop_cons_new {t : ToQ} {cut : List Nat} {fuel : Nat} {u : Nat}
    {rest I F : List Nat} (hu : u ∉ I) :
    extractLoop t cut (fuel + 1) (u :: rest) I F =
      extractLoop t cut fuel
        (((t.childrenOf u).filter fun v => !cut.contains v) ++ rest)
        (u :: I)
        (F ++ (t.childrenOf u).filter fun v => cut.contains v) := by
  have hc : I.contains u = false := by
    rw [Bool.eq_false_iff]
    intro hc
    exact hu (contains_iff.mp hc)
  simp only [extractLoop, hc]
  simp

/-- Full worklist invariant for `extractLoop`: monotonicity of the internal
and frontier accumulators, the stack draining into the internal set, key
membership, preservation of an arbitrary step-closed predicate `G`,
closure of the final internal set under uncut child edges, and the exact
characterization of the final frontier. -/
theorem extractLoop_spec (t : ToQ) (cut : List Nat) (G : Nat → Prop)
    (hGstep : ∀ u v, G u → v ∈ t.childrenOf u → v ∉ cut → G v) :
    ∀ fuel S I F,
      (∀ v ∈ S, v ∈ t.keys) →
      (∀ v ∈ I, v ∈ t.keys) →
      I.Nodup →
      (∀ v ∈ S, G v) →
      (∀ v ∈ I, G v) →
      (∀ u ∈ I, ∀ v, v ∈ t.childrenOf u → v ∉ cut → (v ∈ I ∨ v ∈ S)) →
      (∀ v ∈ F, v ∈ cut ∧ ∃ u, u ∈ I ∧ v ∈ t.childrenOf u) →
      (∀ u ∈ I, ∀ v, v ∈ t.childrenOf u → v ∈ cut → v ∈ F) →
      (t.keys.length - I.length) * (t.keys.length + 1) + S.length < fuel →
      (∀ v ∈ I, v ∈ (extractLoop t cut fuel S I F).1) ∧
      (∀ v ∈ S, v ∈ (extractLoop t cut fuel S I F).1) ∧
      (∀ v ∈ F, v ∈ (extractLoop t cut fuel S I F).2) ∧
      (extractLoop t cut fuel S I F).1.Nodup ∧
      (∀ v ∈ (extractLoop t cut fuel S I F).1, v ∈ t.keys ∧ G v) ∧
      (∀ u ∈ (extractLoop t cut fuel S I F).1, ∀ v, v ∈ t.childrenOf u → v ∉ cut →
        v ∈ (extractLoop t cut fuel S I F).1) ∧
      (∀ v ∈ (extractLoop t cut fuel S I F).2, v ∈ cut ∧
        ∃ u, u ∈ (extractLoop t cut fuel S I F).1 ∧ v ∈ t.childrenOf u) ∧
      (∀ u ∈ (extractLoop t cut fuel S I F).1, ∀ v, v ∈ t.childrenOf u → v ∈ cut →
        v ∈ (extractLoop t cut fuel S I F).2) := by
  intro fuel
  induction fuel with
  | zero =>
    intro S I F _ _ _ _ _ _ _ _ hmu
    omega
  | succ fuel ih =>
    intro S I F hSk hIk hInd hGS hGI hC hF1 hF2 hmu
    cases S with
    | nil =>
      rw [extractLoop_nil]
      exact ⟨fun v hv => hv, fun v hv => absurd hv (List.not_mem_nil v), fun v hv => hv,
        hInd, fun v hv => ⟨hIk v hv, hGI v hv⟩,
        fun u hu v hv hvc => ((hC u hu v hv hvc).resolve_right
          (fun hmem => List.not_mem_nil v hmem)),
        hF1, hF2⟩
    | cons u rest =>
      by_cases hu : u ∈ I
      · rw [extractLoop_cons_mem hu]
        have hC2 : ∀ u2 ∈ I, ∀ v, v ∈ t.childrenOf u2 → v ∉ cut → (v ∈ I ∨ v ∈ rest) := by
          intro u2 hu2 v hv hvc
          rcases hC u2 hu2 v hv hvc with h | h
          · exact Or.inl h
          · rcases List.mem_cons.mp h with rfl | h
            · exact Or.inl hu
            · exact Or.inr h
        have hmu2 : (t.keys.length - I.length) * (t.keys.length + 1) + rest.length < fuel := by
          simp only [List.length_cons] at hmu
          omega
        obtain ⟨c1, c2, c3, c4, c5, c6, c7, c8⟩ :=
          ih rest I F (fun v hv => hSk v (List.mem_cons_of_mem _ hv)) hIk hInd
            (fun v hv => hGS v (List.mem_cons_of_mem _ hv)) hGI hC2 hF1 hF2 hmu2
        refine ⟨c1, ?_, c3, c4, c5, c6, c7, c8⟩
        intro v hv
        rcases List.mem_cons.mp hv with rfl | hv
        · exact c1 v hu
        · exact c2 v hv
      · rw [extractLoop_cons_new hu]
        have huk : u ∈ t.keys := hSk u (List.mem_cons_self u rest)
        have hGu : G u := hGS u (List.mem_cons_self u rest)
        have hlen1 : I.length + 1 ≤ t.keys.length := by
          have hnd2 : (u :: I).Nodup := List.nodup_cons.mpr ⟨hu, hInd⟩
          have hsub : (u :: I) ⊆ t.keys := by
            intro x hx
            rcases List.mem_cons.mp hx with rfl | hx
            · exact huk
            · exact hIk x hx
          have := (List.Nodup.subperm hnd2 hsub).length_le
          simpa using this
        have hfl : ((t.childrenOf u).filter fun v => !cut.contains v).length
            ≤ t.keys.length := by
          refine le_trans (List.length_filter_le _ _) ?_
          rw [keys_length]
          exact childrenOf_length_le t u
        have hmu2 : (t.keys.length - (u :: I).length) * (t.keys.length + 1) +
            (((t.childrenOf u).filter fun v => !cut.contains v) ++ rest).length < fuel := by
          rw [List.length_append, List.length_cons]
          have hA : t.keys.length - I.length = (t.keys.length - (I.length + 1)) + 1 := by
            omega
          rw [hA, add_mul, one_mul] at hmu
          simp only [List.length_cons] at hmu
          generalize (t.keys.length - (I.length + 1)) * (t.keys.length + 1) = M at hmu ⊢
          omega
        have hSk2 : ∀ v ∈ ((t.childrenOf u).filter fun v => !cut.contains v) ++ rest,
            v ∈ t.keys := by
          intro v hv
          rcases List.mem_append.mp hv with hv | hv
          · exact childrenOf_mem_keys (List.mem_of_mem_filter hv)
          · exact hSk v (List.mem_cons_of_mem _ hv)
        have hIk2 : ∀ v ∈ u :: I, v ∈ t.keys := by
          intro v hv
          rcases List.mem_cons.mp hv with rfl | hv
          · exact huk
          · exact hIk v hv
        have hGS2 : ∀ v ∈ ((t.childrenOf u).filter fun v => !cut.contains v) ++ rest,
            G v := by
          intro v hv
          rcases List.mem_append.mp hv with hv | hv
          · have hvc : v ∉ cut := by
              have := List.of_mem_filter hv
              simp only [Bool.not_eq_eq_eq_not, Bool.not_true] at this
              intro hmem
              rw [contains_iff.mpr hmem] at this
              cases this
            exact hGstep u v hGu (List.mem_of_mem_filter hv) hvc
          · exact hGS v (List.mem_cons_of_mem _ hv)
        have hGI2 : ∀ v ∈ u :: I, G v := by
          intro v hv
          rcases List.mem_cons.mp hv with rfl | hv
          · exact hGu
          · exact hGI v hv
        have hC2 : ∀ u2 ∈ u :: I, ∀ v, v ∈ t.childrenOf u2 → v ∉ cut →
            (v ∈ u :: I ∨ v ∈ ((t.childrenOf u).filter fun v => !cut.contains v) ++ rest) := by
          intro u2 hu2 v hv hvc
          rcases List.mem_cons.mp hu2 with rfl | hu2
          · refine Or.inr (List.mem_append.mpr (Or.inl ?_))
            refine List.mem_filter.mpr ⟨hv, ?_⟩
            rw [Bool.not_eq_eq_eq_not, Bool.not_true, Bool.eq_false_iff]
            intro hc
            exact hvc (contains_iff.mp hc)
          · rcases hC u2 hu2 v hv hvc with h | h
            · exact Or.inl (List.mem_cons_of_mem _ h)
            · rcases List.mem_cons.mp h with rfl | h
              · exact Or.inl (List.mem_cons_self _ _)
              · exact Or.inr (List.mem_append.mpr (Or.inr h))
        have hF12 : ∀ v ∈ F ++ (t.childrenOf u).filter (fun v => cut.contains v),
            v ∈ cut ∧ ∃ u2, u2 ∈ u :: I ∧ v ∈ t.childrenOf u2 := by
          intro v hv
          rcases List.mem_append.mp hv with hv | hv
          · obtain ⟨hvc, u2, hu2, hch⟩ := hF1 v hv
            exact ⟨hvc, u2, List.mem_cons_of_mem _ hu2, hch⟩
          · have hvc : v ∈ cut := contains_iff.mp (List.of_mem_filter hv)
            exact ⟨hvc, u, List.mem_cons_self _ _, List.mem_of_mem_filter hv⟩
        have hF22 : ∀ u2 ∈ u :: I, ∀ v, v ∈ t.childrenOf u2 → v ∈ cut →
            v ∈ F ++ (t.childrenOf u).filter (fun v => cut.contains v) := by
          intro u2 hu2 v hv hvc
          rcases List.mem_cons.mp hu2 with rfl | hu2
          · exact List.mem_append.mpr (Or.inr (List.mem_filter.mpr ⟨hv, contains_iff.mpr hvc⟩))
          · exact List.mem_append.mpr (Or.inl (hF2 u2 hu2 v hv hvc))
        obtain ⟨c1, c2, c3, c4, c5, c6, c7, c8⟩ :=
          ih _ (u :: I) _ hSk2 hIk2 (List.nodup_cons.mpr ⟨hu, hInd⟩) hGS2 hGI2 hC2
            hF12 hF22 hmu2
        refine ⟨?_, ?_, ?_, c4, c5, c6, c7, c8⟩
        · intro v hv
          exact c1 v (List.mem_cons_of_mem _ hv)
        · intro v hv
          rcases List.mem_cons.mp hv with rfl | hv
          · exact c1 v (List.mem_cons_self _ _)
          · exact c2 v (List.mem_append.mpr (Or.inr hv))
        · intro v hv
          exact c3 v (List.mem_append.mpr (Or.inl hv))

/-! ### Characterizing the extracted component -/

/-- Any set containing `r` and closed under uncut child edges contains every
node whose component walk returns `r`. -/
theorem component_members_internal {t : ToQ} {cut : List Nat} (hnd : t.keys.Nodup)
    {r : Nat} {Istar : List Nat} (hrI : r ∈ Istar)
    (hclosed : ∀ u ∈ Istar, ∀ v, v ∈ t.childrenOf u → v ∉ cut → v ∈ Istar) :
    ∀ f v, componentRootAux t cut f v = some r → v ∈ Istar := by
  intro f
  induction f with
  | zero =>
    intro v h
    rw [aux_zero] at h
    cases h
  | succ f ih =>
    intro v h
    cases hl : t.lookup v with
    | none => rw [aux_none hl] at h; cases h
    | some node =>
      cases hp : node.parent with
      | none =>
        rw [aux_pnone hl hp] at h
        cases h
        exact hrI
      | some p =>
        by_cases hc : v ∈ cut
        · rw [aux_cut hl hp hc] at h
          cases h
          exact hrI
        · rw [aux_step hl hp hc] at h
          have hpI : p ∈ Istar := ih p h
          have hch : v ∈ t.childrenOf p := (mem_childrenOf_lookup hnd).mpr ⟨node, hl, hp⟩
          exact hclosed p hpI v hch hc

/-- Main characterization of the worklist run at a component root `r`:
the internal set is exactly the set of keys whose component walk returns
`r`, it has no duplicates, and the frontier is exactly the set of cut
children of internal nodes. -/
theorem extractRun_char (t : ToQ) (cut : List Nat) (hval : t.validate = true)
    (hnd : t.keys.Nodup) {r : Nat} (hrk : r ∈ t.keys)
    (hbase : r = t.root_id ∨ r ∈ cut) :
    (∀ v, v ∈ (extractRun t cut r).1 ↔ v ∈ t.keys ∧ CompRootRel t cut v r) ∧
    (extractRun t cut r).1.Nodup ∧
    r ∈ (extractRun t cut r).1 ∧
    (∀ v, v ∈ (extractRun t cut r).2 ↔
      v ∈ cut ∧ ∃ u, u ∈ (extractRun t cut r).1 ∧ v ∈ t.childrenOf u) := by
  have hGr : CompRootRel t cut r r := by
    rcases hbase with hb | hb
    · obtain ⟨node, hl, hp⟩ := validate_root_parent hval
      subst hb
      exact rel_self_of_pnone hl hp
    · obtain ⟨node, hl⟩ := lookup_some_of_mem_keys hrk
      exact rel_self_of_cut hl hb
  have hGstep : ∀ u v, CompRootRel t cut u r → v ∈ t.childrenOf u → v ∉ cut →
      CompRootRel t cut v r := by
    intro u v hGu hch hvc
    obtain ⟨node, hl, hp⟩ := (mem_childrenOf_lookup hnd).mp hch
    exact rel_step_down hl hp hvc hGu
  have hn : 0 < t.nodes.length := by
    rw [← keys_length]
    exact List.length_pos.mpr (List.ne_nil_of_mem hrk)
  have hmu : (t.keys.length - ([] : List Nat).length) * (t.keys.length + 1) +
      ([r] : List Nat).length < (t.nodes.length + 1) * (t.nodes.length + 1) := by
    simp only [List.length_nil, List.length_singleton, Nat.sub_zero, keys_length]
    have hexp : (t.nodes.length + 1) * (t.nodes.length + 1) =
        t.nodes.length * (t.nodes.length + 1) + (t.nodes.length + 1) := by ring
    rw [hexp]
    omega
  obtain ⟨c1, c2, c3, c4, c5, c6, c7, c8⟩ :=
    extractLoop_spec t cut (fun v => CompRootRel t cut v r) hGstep
      ((t.nodes.length + 1) * (t.nodes.length + 1)) [r] [] []
      (fun v hv => by rw [List.mem_singleton] at hv; subst hv; exact hrk)
      (fun v hv => absurd hv (List.not_mem_nil v))
      List.nodup_nil
      (fun v hv => by rw [List.mem_singleton] at hv; subst hv; exact hGr)
      (fun v hv => absurd hv (List.not_mem_nil v))
      (fun u hu => absurd hu (List.not_mem_nil u))
      (fun v hv => absurd hv (List.not_mem_nil v))
      (fun u hu => absurd hu (List.not_mem_nil u))
      hmu
  have hrI : r ∈ (extractRun t cut r).1 := c2 r (List.mem_singleton_self r)
  refine ⟨?_, c4, hrI, ?_⟩
  · intro v
    constructor
    · exact c5 v
    · rintro ⟨hvk, f, hf⟩
      exact component_members_internal hnd hrI c6 f v hf
  · intro v
    constructor
    · exact c7 v
    · rintro ⟨hvc, u, huI, hch⟩
      exact c8 u huI v hch hvc

theorem buildNodeList_eq_map {t : ToQ} {I0 : List Nat} {L : List Nat}
    (h : ∀ x ∈ L, x ∈ t.keys) :
    buildNodeList (extractNode t I0) L = some (L.map fun n => (n, extractNodeD t I0 n)) := by
  induction L with
  | nil => rfl
  | cons x xs ih =>
    obtain ⟨node, hl⟩ := lookup_some_of_mem_keys (h x (List.mem_cons_self x xs))
    have hx : extractNode t I0 x = some (x, extractNodeD t I0 x) := by
      rw [extractNode, hl]
      rw [show extractNodeD t I0 x = ⟨x, node.text,
        match node.parent with
        | some p => if I0.contains p then some p else none
        | none => none⟩ from by rw [extractNodeD, hl]]
      rfl
    rw [buildNodeList, hx, ih fun y hy => h y (List.mem_cons_of_mem _ hy)]
    rfl

theorem keys_of_map_self {L : List Nat} {g : Nat → ToQNode} {rid : Nat} :
    (ToQ.mk (L.map fun n => (n, g n)) rid).keys = L := by
  simp [ToQ.keys, List.map_map, Function.comp_def]

theorem rel_mem_keys {t : ToQ} {cut : List Nat} {v r : Nat} (h : CompRootRel t cut v r) :
    v ∈ t.keys := by
  obtain ⟨f, hf⟩ := h
  cases f with
  | zero => rw [aux_zero] at hf; cases hf
  | succ f =>
    cases hl : t.lookup v with
    | none => rw [aux_none hl] at hf; cases hf
    | some node => exact mem_keys_of_lookup_some hl

/-- Parent facts about the nodes built for the extracted component: the
component root gets `parent = none`, every other internal node keeps its
original parent, which is itself internal. -/
theorem extract_built_parents (t : ToQ) (cut : List Nat) (hval : t.validate = true)
    (hnd : t.keys.Nodup) {r : Nat} (hrk : r ∈ t.keys)
    (hbase : r = t.root_id ∨ r ∈ cut) :
    (extractNodeD t (extractRun t cut r).1 r).parent = none ∧
    (∀ v ∈ (extractRun t cut r).1, v ≠ r →
      ∃ p, (extractNodeD t (extractRun t cut r).1 v).parent = some p ∧
        p ∈ (extractRun t cut r).1 ∧ (t.lookup v).isSome ∧
        ∀ node, t.lookup v = some node → node.parent = some p) := by
  obtain ⟨hchar, hndI, hrI, hfr⟩ := extractRun_char t cut hval hnd hrk hbase
  constructor
  · obtain ⟨noder, hlr⟩ := lookup_some_of_mem_keys hrk
    cases hpr : noder.parent with
    | none => simp [extractNodeD, hlr, hpr]
    | some p =>
      have hpnotI : p ∉ (extractRun t cut r).1 := by
        intro hpI
        obtain ⟨_, hrel⟩ := (hchar p).mp hpI
        exact not_rel_parent hval hlr hpr hrel
      have hcon : (extractRun t cut r).1.contains p = false := by
        rw [Bool.eq_false_iff]
        intro hc
        exact hpnotI (contains_iff.mp hc)
      simp [extractNodeD, hlr, hpr, hpnotI]
  · intro v hvI hvr
    obtain ⟨hvk, hrel⟩ := (hchar v).mp hvI
    obtain ⟨node, p, hl, hp, _, hrelp⟩ := rel_destruct hrel hvr
    have hpI : p ∈ (extractRun t cut r).1 :=
      (hchar p).mpr ⟨rel_mem_keys hrelp, hrelp⟩
    refine ⟨p, ?_, hpI, by rw [hl]; rfl, ?_⟩
    · simp [extractNodeD, hl, hp, hpI]
    · intro node2 hl2
      rw [hl] at hl2
      cases hl2
      exact hp

/-- The ToQ constructed by `extract_open_toq` passes `validate`. -/
theorem extract_ot_validate (t : ToQ) (cut : List Nat) (hval : t.validate = true)
    (hnd : t.keys.Nodup) {r : Nat} (hrk : r ∈ t.keys)
    (hbase : r = t.root_id ∨ r ∈ cut) :
    (ToQ.mk ((extractRun t cut r).1.map
      (fun n => (n, extractNodeD t (extractRun t cut r).1 n))) r).validate = true := by
  classical
  obtain ⟨hchar, hndI, hrI, hfr⟩ := extractRun_char t cut hval hnd hrk hbase
  obtain ⟨hrpar, hvpar⟩ := extract_built_parents t cut hval hnd hrk hbase
  set IS := (extractRun t cut r).1 with hIS
  set ot : ToQ := ⟨IS.map (fun n => (n, extractNodeD t IS n)), r⟩ with hot
  have hkeys : ot.keys = IS := keys_of_map_self
  have hlook : ∀ v, ot.lookup v =
      if v ∈ IS then some (extractNodeD t IS v) else none := by
    intro v
    exact lookup_map_self
  have hrootid : ot.root_id = r := rfl
  rw [ToQ.validate]
  simp only [Bool.and_eq_true]
  refine ⟨⟨⟨?_, ?_⟩, ?_⟩, ?_⟩
  · rw [hkeys]
    exact contains_iff.mpr hrI
  · rw [hlook r, if_pos hrI]
    simp [hrpar]
  · rw [List.all_eq_true]
    rintro ⟨v, nodev⟩ hmem
    obtain ⟨v2, hv2, hpair⟩ := List.mem_map.mp hmem
    cases hpair
    by_cases hvr : v = r
    · simp [hvr]
    · obtain ⟨p, hpp, hpI, _, _⟩ := hvpar v hv2 hvr
      simp [hpp, hkeys, hpI]
  · rw [List.all_eq_true]
    rintro ⟨v, nodev⟩ hmem
    obtain ⟨v2, hv2, hpair⟩ := List.mem_map.mp hmem
    cases hpair
    have hreach := reach_all_of_measure ot IS
      (fun w => if h : ∃ f, reachesRoot t f w = true then Nat.find h else 0)
      ?_ v hv2
    · have hlen : (IS.map (fun n => (n, extractNodeD t IS n))).length = IS.length :=
        List.length_map _ _
      show reachesRoot ot ((IS.map (fun n => (n, extractNodeD t IS n))).length + 1) v = true
      rw [hlen]
      exact hreach
    · intro w hwI
      by_cases hwr : w = r
      · exact Or.inl hwr
      · obtain ⟨p, hpp, hpI, hlsome, hpar⟩ := hvpar w hwI hwr
        obtain ⟨hwk, _⟩ := (hchar w).mp hwI
        obtain ⟨hpk, _⟩ := (hchar p).mp hpI
        obtain ⟨nodew, hlw⟩ := lookup_some_of_mem_keys hwk
        have hew : ∃ f, reachesRoot t f w = true :=
          ⟨t.nodes.length + 1, validate_reaches hval hwk⟩
        have hep : ∃ f, reachesRoot t f p = true :=
          ⟨t.nodes.length + 1, validate_reaches hval hpk⟩
        refine Or.inr ⟨extractNodeD t IS w, p, ?_, hpp, hpI, ?_⟩
        · rw [hlook w, if_pos hwI]
        · show (if h : ∃ f, reachesRoot t f p = true then Nat.find h else 0) <
            (if h : ∃ f, reachesRoot t f w = true then Nat.find h else 0)
          rw [dif_pos hep, dif_pos hew]
          exact minReach_parent_lt hval hlw (hpar nodew hlw) hew hep

/-- On a valid tree, extraction at a component root succeeds and returns the
induced sub-ToQ on the internal set together with the sorted frontier. -/
theorem extract_some (t : ToQ) (plan : CollapsePlan) (hval : t.validate = true)
    (hnd : t.keys.Nodup) {r : Nat} (hrk : r ∈ t.keys)
    (hbase : r = t.root_id ∨ r ∈ plan.cut_edges) :
    extract_open_toq t plan r = some
      ⟨⟨(extractRun t plan.cut_edges r).1.map
          (fun n => (n, extractNodeD t (extractRun t plan.cut_edges r).1 n)), r⟩,
        sortAsc (dedupNat (extractRun t plan.cut_edges r).2), r⟩ := by
  obtain ⟨hchar, hndI, hrI, hfr⟩ := extractRun_char t plan.cut_edges hval hnd hrk hbase
  have hsub : ∀ x ∈ (extractRun t plan.cut_edges r).1, x ∈ t.keys := by
    intro x hx
    exact ((hchar x).mp hx).1
  have hbuild := @buildNodeList_eq_map t (extractRun t plan.cut_edges r).1
    (extractRun t plan.cut_edges r).1 hsub
  have hv2 := extract_ot_validate t plan.cut_edges hval hnd hrk hbase
  rw [extract_open_toq]
  rw [hval]
  simp only [Bool.not_true, Bool.false_eq_true, if_false]
  rw [hbuild]
  simp [hv2]

/-! ### Component roots and the quotient construction -/

theorem mem_component_roots {t : ToQ} {plan : CollapsePlan} {v : Nat} :
    v ∈ component_roots t plan ↔ v = t.root_id ∨ v ∈ plan.cut_edges := by
  rw [component_roots, mem_sortAsc, mem_dedupNat, List.mem_cons]

theorem component_roots_nodup (t : ToQ) (plan : CollapsePlan) :
    (component_roots t plan).Nodup :=
  sortAsc_nodup (nodup_dedupNat _)

theorem component_roots_sorted (t : ToQ) (plan : CollapsePlan) :
    List.Sorted (· < ·) (component_roots t plan) :=
  sortAsc_sorted_lt (nodup_dedupNat _)

theorem root_mem_component_roots (t : ToQ) (plan : CollapsePlan) :
    t.root_id ∈ component_roots t plan :=
  mem_component_roots.mpr (Or.inl rfl)

theorem quotParent_root {t : ToQ} {cut : List Nat} :
    quotParent t cut t.root_id = none := by
  rw [quotParent, if_pos (beq_self_eq_true _)]

/-- For a non-root component root, the rewired quotient parent exists, is a
component root, and sits strictly closer to the global root. -/
theorem quot_built_parents (t : ToQ) (plan : CollapsePlan) (hval : t.validate = true)
    (hcutk : ∀ c ∈ plan.cut_edges, c ∈ t.keys) :
    ∀ r ∈ component_roots t plan, r ≠ t.root_id →
      ∃ node p q, t.lookup r = some node ∧ node.parent = some p ∧ p ∈ t.keys ∧
        componentRootAux t plan.cut_edges (t.nodes.length + 1) p = some q ∧
        quotParent t plan.cut_edges r = some q ∧ q ∈ component_roots t plan := by
  intro r hr hrne
  have hrc : r ∈ plan.cut_edges := (mem_component_roots.mp hr).resolve_left hrne
  have hrk : r ∈ t.keys := hcutk r hrc
  obtain ⟨node, hl⟩ := lookup_some_of_mem_keys hrk
  obtain ⟨p, hp, hpk⟩ := validate_parent hval hl hrne
  obtain ⟨q, hq⟩ := @comp_terminates t plan.cut_edges hval p hpk
  rw [_component_root] at hq
  refine ⟨node, p, q, hl, hp, hpk, hq, ?_, ?_⟩
  · have hb : (r == t.root_id) = false := beq_eq_false_iff_ne.mpr hrne
    simp [quotParent, hb, hl, hp, hq]
  · obtain ⟨hqk, hqor⟩ := aux_result hq
    rcases hqor with hqc | ⟨nodeq, hlq, hpq⟩
    · exact mem_component_roots.mpr (Or.inr hqc)
    · exact mem_component_roots.mpr (Or.inl (validate_root_of_parent_none hval hlq hpq))

/-- The quotient ToQ built by `apply_collapse_plan` passes `validate`. -/
theorem quot_validate (t : ToQ) (plan : CollapsePlan) (cqbr : List (Nat × String))
    (hval : t.validate = true)
    (hcutk : ∀ c ∈ plan.cut_edges, c ∈ t.keys) :
    (ToQ.mk (quotientNodes t plan cqbr) t.root_id).validate = true := by
  classical
  set roots := component_roots t plan with hroots
  set gq : Nat → ToQNode :=
    fun r => ⟨r, (List.lookup r cqbr).getD "", quotParent t plan.cut_edges r⟩ with hgq
  have hqn : quotientNodes t plan cqbr = roots.map fun r => (r, gq r) := rfl
  set qt : ToQ := ⟨quotientNodes t plan cqbr, t.root_id⟩ with hqt
  have hkeys : qt.keys = roots := by
    rw [hqt, hqn]
    exact keys_of_map_self
  have hlook : ∀ v, qt.lookup v = if v ∈ roots then some (gq v) else none := by
    intro v
    rw [hqt, hqn]
    exact lookup_map_self
  have hrootsk : ∀ v ∈ roots, v ∈ t.keys := by
    intro v hv
    rcases mem_component_roots.mp hv with rfl | hv
    · exact validate_root_mem hval
    · exact hcutk v hv
  have hrmem : t.root_id ∈ roots := root_mem_component_roots t plan
  rw [ToQ.validate]
  simp only [Bool.and_eq_true]
  refine ⟨⟨⟨?_, ?_⟩, ?_⟩, ?_⟩
  · rw [hkeys]
    exact contains_iff.mpr hrmem
  · rw [hlook t.root_id, if_pos hrmem]
    simp [hgq, quotParent_root]
  · rw [List.all_eq_true]
    rintro ⟨v, nodev⟩ hmem
    rw [hqn] at hmem
    obtain ⟨v2, hv2, hpair⟩ := List.mem_map.mp hmem
    cases hpair
    by_cases hvr : v = t.root_id
    · simp [hvr]
    · obtain ⟨node, p, q, _, _, _, _, hqp, hqroots⟩ :=
        quot_built_parents t plan hval hcutk v hv2 hvr
      simp [hgq, hqp, hkeys, hqroots]
  · rw [List.all_eq_true]
    rintro ⟨v, nodev⟩ hmem
    rw [hqn] at hmem
    obtain ⟨v2, hv2, hpair⟩ := List.mem_map.mp hmem
    cases hpair
    have hreach := reach_all_of_measure qt roots
      (fun w => if h : ∃ f, reachesRoot t f w = true then Nat.find h else 0)
      ?_ v hv2
    · have hlen : qt.nodes.length = roots.length := by
        rw [hqt, hqn]
        exact List.length_map _ _
      show reachesRoot qt (qt.nodes.length + 1) v = true
      rw [hlen]
      exact hreach
    · intro w hwI
      by_cases hwr : w = t.root_id
      · exact Or.inl hwr
      · obtain ⟨node, p, q, hlw, hpw, hpk, hwalk, hqp, hqroots⟩ :=
          quot_built_parents t plan hval hcutk w hwI hwr
        have hwk : w ∈ t.keys := hrootsk w hwI
        have hqk : q ∈ t.keys := (aux_result hwalk).1
        have hew : ∃ f, reachesRoot t f w = true :=
          ⟨t.nodes.length + 1, validate_reaches hval hwk⟩
        have hep : ∃ f, reachesRoot t f p = true :=
          ⟨t.nodes.length + 1, validate_reaches hval hpk⟩
        have heq2 : ∃ f, reachesRoot t f q = true :=
          ⟨t.nodes.length + 1, validate_reaches hval hqk⟩
        refine Or.inr ⟨gq w, q, ?_, hqp, hqroots, ?_⟩
        · rw [hlook w, if_pos hwI]
        · show (if h : ∃ f, reachesRoot t f q = true then Nat.find h else 0) <
            (if h : ∃ f, reachesRoot t f w = true then Nat.find h else 0)
          rw [dif_pos heq2, dif_pos hew]
          have h1 := walk_minReach_le hval hwalk hep heq2
          have h2 := minReach_parent_lt hval hlw hpw hew hep
          omega

/-- On a valid tree with well-formed cut edges and a complete
collapsed-question mapping, `apply_collapse_plan` succeeds, returning the
quotient tree on the component roots. -/
theorem apply_ok (t : ToQ) (plan : CollapsePlan) (cqbr : List (Nat × String))
    (hval : t.validate = true)
    (hcutk : ∀ c ∈ plan.cut_edges, c ∈ t.keys) (hcutr : t.root_id ∉ plan.cut_edges)
    (hq : ∀ r ∈ component_roots t plan, (List.lookup r cqbr).isSome) :
    apply_collapse_plan t plan cqbr = .ok
      ⟨⟨quotientNodes t plan cqbr, t.root_id⟩, plan, removedNodes t plan, cqbr,
        component_roots t plan, none⟩ := by
  have hg1 : plan.cut_edges.contains t.root_id = false := by
    rw [Bool.eq_false_iff]
    intro hc
    exact hcutr (contains_iff.mp hc)
  have hg2 : (plan.cut_edges.any fun c => !t.keys.contains c) = false := by
    rw [Bool.eq_false_iff]
    intro hc
    obtain ⟨c, hcm, hcb⟩ := List.any_eq_true.mp hc
    rw [contains_iff.mpr (hcutk c hcm)] at hcb
    cases hcb
  have hg3 : (plan.cut_edges.any fun c =>
      match t.lookup c with
      | some node => node.parent == none
      | none => true) = false := by
    rw [Bool.eq_false_iff]
    intro hc
    obtain ⟨c, hcm, hcb⟩ := List.any_eq_true.mp hc
    have hcr : c ≠ t.root_id := fun h => hcutr (h ▸ hcm)
    obtain ⟨node, hl⟩ := lookup_some_of_mem_keys (hcutk c hcm)
    obtain ⟨p, hp, _⟩ := validate_parent hval hl hcr
    rw [hl] at hcb
    simp only [hp] at hcb
    cases hcb
  have hg4 : ((component_roots t plan).any fun r => (List.lookup r cqbr).isNone) = false := by
    rw [Bool.eq_false_iff]
    intro hc
    obtain ⟨r, hrm, hrb⟩ := List.any_eq_true.mp hc
    have := hq r hrm
    rw [Option.isNone_iff_eq_none] at hrb
    rw [hrb] at this
    cases this
  have hv2 := quot_validate t plan cqbr hval hcutk
  rw [apply_collapse_plan, hval]
  simp only [Bool.not_true, Bool.false_eq_true, if_false]
  rw [hg1, hg2, hg3, hg4]
  simp only [Bool.false_eq_true, if_false]
  rw [hv2]
  simp

/-- Any malformed cut edge (the root, an absent node, or a parentless node)
makes `apply_collapse_plan` fail with `invalidCut`. -/
theorem apply_invalid_cut (t : ToQ) (plan : CollapsePlan) (cqbr : List (Nat × String))
    (hval : t.validate = true)
    (hbad : t.root_id ∈ plan.cut_edges ∨ (∃ c ∈ plan.cut_edges, c ∉ t.keys) ∨
      (∃ c ∈ plan.cut_edges, ∃ node, t.lookup c = some node ∧ node.parent = none)) :
    apply_collapse_plan t plan cqbr = .error .invalidCut := by
  rw [apply_collapse_plan, hval]
  simp only [Bool.not_true, Bool.false_eq_true, if_false]
  by_cases hA : plan.cut_edges.contains t.root_id
  · rw [hA]
    simp
  · rw [Bool.eq_false_iff.mpr hA]
    simp only [Bool.false_eq_true, if_false]
    by_cases hB : plan.cut_edges.any fun c => !t.keys.contains c
    · rw [hB]
      simp
    · rw [Bool.eq_false_iff.mpr hB]
      simp only [Bool.false_eq_true, if_false]
      have hC : (plan.cut_edges.any fun c =>
          match t.lookup c with
          | some node => node.parent == none
          | none => true) = true := by
        rcases hbad with hbad | ⟨c, hcm, hck⟩ | ⟨c, hcm, node, hl, hp⟩
        · exact absurd (contains_iff.mpr hbad) hA
        · exfalso
          apply hB
          rw [List.any_eq_true]
          refine ⟨c, hcm, ?_⟩
          rw [Bool.not_eq_eq_eq_not, Bool.not_true, Bool.eq_false_iff]
          intro hcon
          exact hck (contains_iff.mp hcon)
        · rw [List.any_eq_true]
          refine ⟨c, hcm, ?_⟩
          rw [hl]
          simp [hp]
      rw [hC]
      simp
/-- A missing collapsed question for some component root (with otherwise
well-formed input) makes `apply_collapse_plan` fail with
`missingCollapsedQuestion`. -/
theorem apply_missing (t : ToQ) (plan : CollapsePlan) (cqbr : List (Nat × String))
    (hval : t.validate = true)
    (hcutk : ∀ c ∈ plan.cut_edges, c ∈ t.keys) (hcutr : t.root_id ∉ plan.cut_edges)
    (hmiss : ∃ r ∈ component_roots t plan, List.lookup r cqbr = none) :
    apply_collapse_plan t plan cqbr = .error .missingCollapsedQuestion := by
  have hg1 : plan.cut_edges.contains t.root_id = false := by
    rw [Bool.eq_false_iff]
    intro hc
    exact hcutr (contains_iff.mp hc)
  have hg2 : (plan.cut_edges.any fun c => !t.keys.contains c) = false := by
    rw [Bool.eq_false_iff]
    intro hc
    obtain ⟨c, hcm, hcb⟩ := List.any_eq_true.mp hc
    rw [contains_iff.mpr (hcutk c hcm)] at hcb
    cases hcb
  have hg3 : (plan.cut_edges.any fun c =>
      match t.lookup c with
      | some node => node.parent == none
      | none => true) = false := by
    rw [Bool.eq_false_iff]
    intro hc
    obtain ⟨c, hcm, hcb⟩ := List.any_eq_true.mp hc
    have hcr : c ≠ t.root_id := fun h => hcutr (h ▸ hcm)
    obtain ⟨node, hl⟩ := lookup_some_of_mem_keys (hcutk c hcm)
    obtain ⟨p, hp, _⟩ := validate_parent hval hl hcr
    rw [hl] at hcb
    simp only [hp] at hcb
    cases hcb
  have hg4 : ((component_roots t plan).any fun r => (List.lookup r cqbr).isNone) = true := by
    rw [List.any_eq_true]
    obtain ⟨r, hrm, hrn⟩ := hmiss
    exact ⟨r, hrm, by rw [hrn]; rfl⟩
  rw [apply_collapse_plan, hval]
  simp only [Bool.not_true, Bool.false_eq_true, if_false]
  rw [hg1, hg2, hg3, hg4]
  simp

/-! ### Combinations -/

theorem combinations_zero {l : List Nat} : combinations 0 l = [[]] := by
  cases l <;> rfl

theorem combinations_length_mem {r : Nat} {l s : List Nat} (h : s ∈ combinations r l) :
    s.length = r := by
  induction l generalizing r s with
  | nil =>
    cases r with
    | zero => rw [combinations_zero, List.mem_singleton] at h; subst h; rfl
    | succ r => cases h
  | cons x xs ih =>
    cases r with
    | zero => rw [combinations_zero, List.mem_singleton] at h; subst h; rfl
    | succ r =>
      rw [combinations, List.mem_append] at h
      rcases h with h | h
      · obtain ⟨s2, hs2, rfl⟩ := List.mem_map.mp h
        rw [List.length_cons, ih hs2]
      · exact ih h

theorem combinations_sublist {r : Nat} {l s : List Nat} (h : s ∈ combinations r l) :
    s.Sublist l := by
  induction l generalizing r s with
  | nil =>
    cases r with
    | zero => rw [combinations_zero, List.mem_singleton] at h; subst h; exact List.Sublist.refl _
    | succ r => cases h
  | cons x xs ih =>
    cases r with
    | zero =>
      rw [combinations_zero, List.mem_singleton] at h
      subst h
      exact List.nil_sublist _
    | succ r =>
      rw [combinations, List.mem_append] at h
      rcases h with h | h
      · obtain ⟨s2, hs2, rfl⟩ := List.mem_map.mp h
        exact List.Sublist.cons₂ x (ih hs2)
      · exact List.Sublist.cons x (ih h)

theorem combinations_eq_nil_of_gt {r : Nat} {l : List Nat} (h : l.length < r) :
    combinations r l = [] := by
  induction l generalizing r with
  | nil =>
    cases r with
    | zero => omega
    | succ r => rfl
  | cons x xs ih =>
    cases r with
    | zero => omega
    | succ r =>
      rw [combinations]
      rw [List.length_cons] at h
      rw [ih (by omega), ih (by omega)]
      rfl

theorem sum_map_add {l : List Nat} {f g : Nat → Nat} :
    (l.map fun r => f r + g r).sum = (l.map f).sum + (l.map g).sum := by
  induction l with
  | nil => rfl
  | cons x xs ih =>
    simp only [List.map_cons, List.sum_cons, ih]
    omega

theorem combinations_total (l : List Nat) :
    ((List.range (l.length + 1)).map fun r => (combinations r l).length).sum
      = 2 ^ l.length := by
  induction l with
  | nil => rfl
  | cons x xs ih =>
    have hF0 : (combinations 0 (x :: xs)).length = 1 := rfl
    have hFS : ∀ r, (combinations (r + 1) (x :: xs)).length =
        (combinations r xs).length + (combinations (r + 1) xs).length := by
      intro r
      rw [combinations, List.length_append, List.length_map]
    have hGtop : (combinations (xs.length + 1) xs).length = 0 := by
      rw [combinations_eq_nil_of_gt (by omega)]
      rfl
    have hsplitG : ((List.range (xs.length + 1 + 1)).map
        fun r => (combinations r xs).length).sum =
        ((List.range (xs.length + 1)).map fun r => (combinations r xs).length).sum := by
      rw [List.range_succ, List.map_append, List.sum_append]
      simp [hGtop]
    have hheadG : ((List.range (xs.length + 1 + 1)).map
        fun r => (combinations r xs).length).sum =
        1 + ((List.range (xs.length + 1)).map
          fun r => (combinations (r + 1) xs).length).sum := by
      rw [List.range_succ_eq_map, List.map_cons, List.sum_cons, List.map_map,
        combinations_zero]
      rfl
    have hB : 1 + ((List.range (xs.length + 1)).map
        fun r => (combinations (r + 1) xs).length).sum = 2 ^ xs.length := by
      rw [← hheadG, hsplitG, ih]
    rw [List.length_cons]
    rw [List.range_succ_eq_map, List.map_cons, List.sum_cons, List.map_map]
    have hcomp : ((List.range (xs.length + 1)).map
        ((fun r => (combinations r (x :: xs)).length) ∘ Nat.succ)).sum =
        ((List.range (xs.length + 1)).map
          fun r => (combinations r xs).length + (combinations (r + 1) xs).length).sum := by
      congr 1
      apply List.map_congr_left
      intro r _
      exact hFS r
    rw [hcomp, sum_map_add, ih, hF0]
    have h2 : 2 ^ (xs.length + 1) = 2 ^ xs.length + 2 ^ xs.length := by ring
    omega

theorem sublist_eq_of_perm {l s1 s2 : List Nat} (hnd : l.Nodup) (h1 : s1.Sublist l)
    (h2 : s2.Sublist l) (hp : s1.Perm s2) : s1 = s2 := by
  induction l generalizing s1 s2 with
  | nil =>
    rw [List.sublist_nil.mp h1, List.sublist_nil.mp h2]
  | cons x xs ih =>
    rw [List.nodup_cons] at hnd
    rcases List.sublist_cons_iff.mp h1 with h1' | ⟨r1, rfl, h1'⟩
    · rcases List.sublist_cons_iff.mp h2 with h2' | ⟨r2, rfl, h2'⟩
      · exact ih hnd.2 h1' h2' hp
      · exfalso
        have hx : x ∈ s1 := hp.symm.subset (List.mem_cons_self x r2)
        exact hnd.1 (h1'.subset hx)
    · rcases List.sublist_cons_iff.mp h2 with h2' | ⟨r2, rfl, h2'⟩
      · exfalso
        have hx : x ∈ s2 := hp.subset (List.mem_cons_self x r1)
        exact hnd.1 (h2'.subset hx)
      · have heq := ih hnd.2 h1' h2' (List.Perm.cons_inv hp)
        rw [heq]

theorem combinations_nodup {r : Nat} {l : List Nat} (hnd : l.Nodup) :
    (combinations r l).Nodup := by
  induction l generalizing r with
  | nil =>
    cases r with
    | zero => exact List.nodup_singleton _
    | succ r => exact List.nodup_nil
  | cons x xs ih =>
    rw [List.nodup_cons] at hnd
    cases r with
    | zero => exact List.nodup_singleton _
    | succ r =>
      rw [combinations]
      refine List.Nodup.append ?_ (ih hnd.2) ?_
      · refine List.Nodup.map_on ?_ (ih hnd.2)
        intro a _ b _ hab
        exact (List.cons.injEq x a x b).mp hab |>.2
      · intro s hs1 hs2
        obtain ⟨s2, _, rfl⟩ := List.mem_map.mp hs1
        have hsub := combinations_sublist hs2
        exact hnd.1 (hsub.subset (List.mem_cons_self x s2))

/-! ### The plan sequence -/

theorem enumerate_eq {t : ToQ} (hval : t.validate = true) (ie : Bool) :
    enumerate_collapse_plans t ie = some (planSeq t ie) := by
  rw [enumerate_collapse_plans, if_pos hval]

theorem enumerate_none {t : ToQ} (hval : t.validate = false) (ie : Bool) :
    enumerate_collapse_plans t ie = none := by
  rw [enumerate_collapse_plans, if_neg (by rw [hval]; exact Bool.false_ne_true)]

theorem planSeq_true_cons (t : ToQ) : planSeq t true = ⟨[]⟩ :: planSeq t false := by
  rw [planSeq, planSeq]
  have hT : ((List.range ((t.keys.filter fun nid => !(nid == t.root_id)).length + 1)).filter
      fun r => !(r == 0 && !true)) =
      List.range ((t.keys.filter fun nid => !(nid == t.root_id)).length + 1) := by
    rw [List.filter_eq_self]
    intro a _
    simp
  have hF : ((List.range ((t.keys.filter fun nid => !(nid == t.root_id)).length + 1)).filter
      fun r => !(r == 0 && !false)) =
      (List.range ((t.keys.filter fun nid => !(nid == t.root_id)).length)).map Nat.succ := by
    rw [List.range_succ_eq_map, List.filter_cons]
    simp only [beq_self_eq_true, Bool.not_false, Bool.and_true, Bool.not_true,
      Bool.false_eq_true, if_false]
    rw [List.filter_eq_self]
    intro a ha
    obtain ⟨b, _, rfl⟩ := List.mem_map.mp ha
    simp
  rw [hT, hF, List.range_succ_eq_map, List.flatMap_cons, combinations_zero]
  rfl

theorem planSeq_true_length (t : ToQ) :
    (planSeq t true).length =
      2 ^ (t.keys.filter fun nid => !(nid == t.root_id)).length := by
  rw [planSeq]
  have hT : ((List.range ((t.keys.filter fun nid => !(nid == t.root_id)).length + 1)).filter
      fun r => !(r == 0 && !true)) =
      List.range ((t.keys.filter fun nid => !(nid == t.root_id)).length + 1) := by
    rw [List.filter_eq_self]
    intro a _
    simp
  rw [hT, List.length_flatMap]
  have hmap : (List.range ((t.keys.filter fun nid => !(nid == t.root_id)).length + 1)).map
      (List.length ∘ fun r =>
        (combinations r (t.keys.filter fun nid => !(nid == t.root_id))).map
          fun s => (⟨sortAsc s⟩ : CollapsePlan)) =
      (List.range ((t.keys.filter fun nid => !(nid == t.root_id)).length + 1)).map
        fun r => (combinations r (t.keys.filter fun nid => !(nid == t.root_id))).length := by
    apply List.map_congr_left
    intro r _
    exact List.length_map _ _
  rw [hmap, combinations_total]

theorem planSeq_nodup (t : ToQ) (hnd : t.keys.Nodup) (ie : Bool) :
    (planSeq t ie).Nodup := by
  have hed : (t.keys.filter fun nid => !(nid == t.root_id)).Nodup :=
    List.Nodup.filter _ hnd
  rw [planSeq, List.nodup_flatMap]
  constructor
  · intro r _
    refine List.Nodup.map_on ?_ (combinations_nodup hed)
    intro a ha b hb hab
    have heq : sortAsc a = sortAsc b := congrArg CollapsePlan.cut_edges hab
    have hperm : a.Perm b :=
      ((sortAsc_perm a).symm.trans (heq ▸ sortAsc_perm b))
    exact sublist_eq_of_perm hed (combinations_sublist ha) (combinations_sublist hb) hperm
  · refine List.Pairwise.imp ?_
      (List.Pairwise.filter _ (List.pairwise_lt_range _))
    intro r1 r2 hlt p hp1 hp2
    obtain ⟨s1, hs1, he1⟩ := List.mem_map.mp hp1
    obtain ⟨s2, hs2, he2⟩ := List.mem_map.mp hp2
    have heq : sortAsc s1 = sortAsc s2 := by
      rw [← he2] at he1
      exact congrArg CollapsePlan.cut_edges he1
    have hl1 := combinations_length_mem hs1
    have hl2 := combinations_length_mem hs2
    have : s1.length = s2.length := by
      rw [← sortAsc_length s1, ← sortAsc_length s2, heq]
    omega

theorem planSeq_mem_sorted (t : ToQ) (hnd : t.keys.Nodup) (ie : Bool) {p : CollapsePlan}
    (hp : p ∈ planSeq t ie) : List.Sorted (· < ·) p.cut_edges := by
  have hed : (t.keys.filter fun nid => !(nid == t.root_id)).Nodup :=
    List.Nodup.filter _ hnd
  rw [planSeq, List.mem_flatMap] at hp
  obtain ⟨r, _, hmem⟩ := hp
  obtain ⟨s, hs, rfl⟩ := List.mem_map.mp hmem
  exact sortAsc_sorted_lt ((combinations_sublist hs).nodup hed)

theorem spec_eq_planSeq {t : ToQ} (hsort : List.Sorted (· ≤ ·) t.keys) (ie : Bool) :
    enumerateSpecOrdered t ie = planSeq t ie := by
  rw [enumerateSpecOrdered, planSeq,
    sortAsc_eq_self (List.Pairwise.filter _ hsort)]

/-! ### Metrics -/

theorem mem_firstKeys {l : List String} {a : String} : a ∈ firstKeys l ↔ a ∈ l := by
  induction l using firstKeys.induct with
  | case1 => simp [firstKeys]
  | case2 x xs ih =>
    rw [firstKeys]
    simp only [List.mem_cons, ih, List.mem_filter]
    constructor
    · rintro (rfl | ⟨h, _⟩)
      · exact Or.inl rfl
      · exact Or.inr h
    · rintro (rfl | h)
      · exact Or.inl rfl
      · by_cases hax : a = x
        · exact Or.inl hax
        · refine Or.inr ⟨h, ?_⟩
          simp [hax]

theorem firstKeys_nodup (l : List String) : (firstKeys l).Nodup := by
  induction l using firstKeys.induct with
  | case1 => simp [firstKeys]
  | case2 x xs ih =>
    rw [firstKeys, List.nodup_cons]
    refine ⟨fun hmem => ?_, ih⟩
    have := List.mem_filter.mp (mem_firstKeys.mp hmem)
    simp at this

theorem length_filter_ne_add_count {l : List String} {x : String} :
    (l.filter fun y => !(y == x)).length + l.count x = l.length := by
  induction l with
  | nil => rfl
  | cons a as ih =>
    by_cases hax : a = x
    · subst hax
      rw [List.filter_cons]
      simp only [beq_self_eq_true, Bool.not_true, Bool.false_eq_true, if_false]
      rw [List.count_cons_self]
      simp only [List.length_cons]
      omega
    · rw [List.filter_cons]
      have hb : (a == x) = false := beq_eq_false_iff_ne.mpr hax
      simp only [hb, Bool.not_false, if_true]
      rw [List.count_cons_of_ne (fun h => hax h.symm)]
      simp only [List.length_cons]
      omega

theorem sum_counts_firstKeys (l : List String) :
    ((firstKeys l).map fun k => l.count k).sum = l.length := by
  induction l using firstKeys.induct with
  | case1 => simp [firstKeys]
  | case2 x xs ih =>
    rw [firstKeys, List.map_cons, List.sum_cons]
    have hcong : (firstKeys (xs.filter fun y => !(y == x))).map
        (fun k => (x :: xs).count k) =
        (firstKeys (xs.filter fun y => !(y == x))).map
          (fun k => (xs.filter fun y => !(y == x)).count k) := by
      apply List.map_congr_left
      intro k hk
      have hkmem := mem_firstKeys.mp hk
      have hkx : k ≠ x := by
        have := (List.mem_filter.mp hkmem).2
        simp at this
        exact this
      rw [List.count_cons_of_ne hkx, List.count_filter]
      simp [hkx]
    rw [hcong, ih, List.count_cons_self, List.length_cons]
    have := @length_filter_ne_add_count xs x
    omega

theorem foldr_max_ge {l : List Nat} {x : Nat} (h : x ∈ l) : x ≤ l.foldr Nat.max 0 := by
  induction l with
  | nil => cases h
  | cons a as ih =>
    rw [List.foldr_cons]
    rcases List.mem_cons.mp h with rfl | h
    · exact Nat.le_max_left _ _
    · exact le_trans (ih h) (Nat.le_max_right _ _)

theorem foldr_max_mem_or (l : List Nat) :
    l.foldr Nat.max 0 = 0 ∨ l.foldr Nat.max 0 ∈ l := by
  induction l with
  | nil => exact Or.inl rfl
  | cons a as ih =>
    rw [List.foldr_cons]
    rcases Nat.le_total a (as.foldr Nat.max 0) with hle | hle
    · have heq : a.max (as.foldr Nat.max 0) = as.foldr Nat.max 0 := by
        have hconv : a.max (as.foldr Nat.max 0) = max a (as.foldr Nat.max 0) := rfl
        rw [hconv, Nat.max_eq_right hle]
      rw [heq]
      rcases ih with h | h
      · exact Or.inl h
      · exact Or.inr (List.mem_cons_of_mem _ h)
    · have heq : a.max (as.foldr Nat.max 0) = a := by
        have hconv : a.max (as.foldr Nat.max 0) = max a (as.foldr Nat.max 0) := rfl
        rw [hconv, Nat.max_eq_left hle]
      rw [heq]
      exact Or.inr (List.mem_cons_self _ _)

theorem mem_le_sum {l : List Nat} {x : Nat} (h : x ∈ l) : x ≤ l.sum := by
  induction l with
  | nil => cases h
  | cons a as ih =>
    rw [List.sum_cons]
    rcases List.mem_cons.mp h with rfl | h
    · omega
    · have := ih h
      omega

/-! ### Final helpers -/

theorem dedupNat_eq_self_of_nodup {l : List Nat} (h : l.Nodup) : dedupNat l = l := by
  induction l with
  | nil => rfl
  | cons x xs ih =>
    rw [List.nodup_cons] at h
    rw [dedupNat_cons_of_not_mem h.1, ih h.2]

theorem nodup_of_sorted_lt {l : List Nat} (h : List.Sorted (· < ·) l) : l.Nodup :=
  h.imp ne_of_lt

/-- Every internal node of the worklist run is reachable from the root of
the component without crossing a cut edge. -/
theorem extractRun_sound_reach (t : ToQ) (cut : List Nat) {r : Nat} (hrk : r ∈ t.keys) :
    ∀ v ∈ (extractRun t cut r).1, ReachNoCut t cut r v := by
  have hn : 0 < t.nodes.length := by
    rw [← keys_length]
    exact List.length_pos.mpr (List.ne_nil_of_mem hrk)
  have hmu : (t.keys.length - ([] : List Nat).length) * (t.keys.length + 1) +
      ([r] : List Nat).length < (t.nodes.length + 1) * (t.nodes.length + 1) := by
    simp only [List.length_nil, List.length_singleton, Nat.sub_zero, keys_length]
    have hexp : (t.nodes.length + 1) * (t.nodes.length + 1) =
        t.nodes.length * (t.nodes.length + 1) + (t.nodes.length + 1) := by ring
    rw [hexp]
    omega
  obtain ⟨_, _, _, _, c5, _, _, _⟩ :=
    extractLoop_spec t cut (ReachNoCut t cut r)
      (fun u v hGu hch hvc => ReachNoCut.step hGu hch hvc)
      ((t.nodes.length + 1) * (t.nodes.length + 1)) [r] [] []
      (fun v hv => by rw [List.mem_singleton] at hv; subst hv; exact hrk)
      (fun v hv => absurd hv (List.not_mem_nil v))
      List.nodup_nil
      (fun v hv => by rw [List.mem_singleton] at hv; subst hv; exact ReachNoCut.refl)
      (fun v hv => absurd hv (List.not_mem_nil v))
      (fun u hu => absurd hu (List.not_mem_nil u))
      (fun v hv => absurd hv (List.not_mem_nil v))
      (fun u hu => absurd hu (List.not_mem_nil u))
      hmu
  intro v hv
  exact (c5 v hv).2

theorem component_roots_nil (t : ToQ) : component_roots t ⟨[]⟩ = [t.root_id] := rfl

/-! ### Claim theorems -/

/-- C5: for every ToQ and every CollapsePlan over it (the spec's data model
section 3: `cut_edges` has no duplicates and, being edges, excludes the
root), `component_roots` returns the ascending-sorted union of `{root_id}`
and `plan.cut_edges`; it always contains `root_id` and its cardinality is
`|cut_edges| + 1`. -/
theorem component_roots_spec (t : ToQ) (plan : CollapsePlan)
    (hnd : plan.cut_edges.Nodup) (hroot : t.root_id ∉ plan.cut_edges) :
    (∀ v, v ∈ component_roots t plan ↔ v = t.root_id ∨ v ∈ plan.cut_edges) ∧
    List.Sorted (· < ·) (component_roots t plan) ∧
    t.root_id ∈ component_roots t plan ∧
    (component_roots t plan).length = plan.cut_edges.length + 1 := by
  refine ⟨fun v => mem_component_roots, component_roots_sorted t plan,
    root_mem_component_roots t plan, ?_⟩
  rw [component_roots, sortAsc_length,
    dedupNat_eq_self_of_nodup (List.nodup_cons.mpr ⟨hroot, hnd⟩), List.length_cons]

theorem component_roots_spec_witness :
    (([2, 5] : List Nat).Nodup ∧ (0 : Nat) ∉ ([2, 5] : List Nat)) ∧
    ((∀ v, v ∈ component_roots ⟨[(0, ⟨0, "r", none⟩)], 0⟩ ⟨[2, 5]⟩ ↔
        v = 0 ∨ v ∈ ([2, 5] : List Nat)) ∧
      List.Sorted (· < ·) (component_roots ⟨[(0, ⟨0, "r", none⟩)], 0⟩ ⟨[2, 5]⟩) ∧
      (0 : Nat) ∈ component_roots ⟨[(0, ⟨0, "r", none⟩)], 0⟩ ⟨[2, 5]⟩ ∧
      (component_roots ⟨[(0, ⟨0, "r", none⟩)], 0⟩ ⟨[2, 5]⟩).length = 2 + 1) :=
  ⟨⟨by decide, by decide⟩,
    component_roots_spec ⟨[(0, ⟨0, "r", none⟩)], 0⟩ ⟨[2, 5]⟩ (by decide) (by decide)⟩

/-- C8: on a valid (acyclic, single-rooted) tree, for any node of the tree
and any cut set, the upward walk of `_component_root` terminates; it
returns the start node itself as soon as its parent is `None` or the start
node is a member of the cut set. -/
theorem component_root_walk_spec (t : ToQ) (hval : t.validate = true) (nid : Nat)
    (hnid : nid ∈ t.keys) (cut : List Nat) :
    (∃ x, _component_root t nid cut = some x) ∧
    (∀ node, t.lookup nid = some node → node.parent = none →
      _component_root t nid cut = some nid) ∧
    (nid ∈ cut → _component_root t nid cut = some nid) := by
  refine ⟨comp_terminates hval hnid, ?_, ?_⟩
  · intro node hl hp
    rw [_component_root]
    exact aux_pnone hl hp
  · intro hc
    obtain ⟨node, hl⟩ := lookup_some_of_mem_keys hnid
    rw [_component_root]
    cases hp : node.parent with
    | none => exact aux_pnone hl hp
    | some p => exact aux_cut hl hp hc

theorem component_root_walk_spec_witness :
    ((⟨[(0, ⟨0, "r", none⟩), (1, ⟨1, "a", some 0⟩), (2, ⟨2, "b", some 1⟩)], 0⟩ :
        ToQ).validate = true ∧
      (2 : Nat) ∈ (⟨[(0, ⟨0, "r", none⟩), (1, ⟨1, "a", some 0⟩), (2, ⟨2, "b", some 1⟩)], 0⟩ :
        ToQ).keys) ∧
    ((∃ x, _component_root
        ⟨[(0, ⟨0, "r", none⟩), (1, ⟨1, "a", some 0⟩), (2, ⟨2, "b", some 1⟩)], 0⟩ 2 [2] =
        some x) ∧
      (∀ node, ToQ.lookup
          ⟨[(0, ⟨0, "r", none⟩), (1, ⟨1, "a", some 0⟩), (2, ⟨2, "b", some 1⟩)], 0⟩ 2 =
          some node → node.parent = none →
        _component_root
          ⟨[(0, ⟨0, "r", none⟩), (1, ⟨1, "a", some 0⟩), (2, ⟨2, "b", some 1⟩)], 0⟩ 2 [2] =
          some 2) ∧
      ((2 : Nat) ∈ ([2] : List Nat) →
        _component_root
          ⟨[(0, ⟨0, "r", none⟩), (1, ⟨1, "a", some 0⟩), (2, ⟨2, "b", some 1⟩)], 0⟩ 2 [2] =
          some 2)) :=
  ⟨⟨by decide, by decide⟩,
    component_root_walk_spec
      ⟨[(0, ⟨0, "r", none⟩), (1, ⟨1, "a", some 0⟩), (2, ⟨2, "b", some 1⟩)], 0⟩
      (by decide) 2 (by decide) [2]⟩

/-- C3: for every valid ToQ with `k` non-root nodes,
`enumerate_collapse_plans` returns exactly `2 ^ k` plans with
`include_empty = true` and exactly `2 ^ k - 1` plans with
`include_empty = false` (omitting only the empty plan); the plans are
pairwise distinct and every plan's `cut_edges` is sorted ascending with no
duplicates. -/
theorem enumerate_counts (t : ToQ) (hval : t.validate = true) (hnd : t.keys.Nodup) :
    ∃ l l2 : List CollapsePlan,
      enumerate_collapse_plans t true = some l ∧
      enumerate_collapse_plans t false = some l2 ∧
      l.length = 2 ^ (t.keys.filter fun nid => !(nid == t.root_id)).length ∧
      l2.length = 2 ^ (t.keys.filter fun nid => !(nid == t.root_id)).length - 1 ∧
      l = ⟨[]⟩ :: l2 ∧
      l.Nodup ∧ l2.Nodup ∧
      (∀ p ∈ l, List.Sorted (· < ·) p.cut_edges ∧ p.cut_edges.Nodup) := by
  refine ⟨planSeq t true, planSeq t false, enumerate_eq hval true, enumerate_eq hval false,
    planSeq_true_length t, ?_, planSeq_true_cons t, planSeq_nodup t hnd true,
    planSeq_nodup t hnd false, ?_⟩
  · have h1 := planSeq_true_length t
    have h2 := planSeq_true_cons t
    have h3 : (planSeq t true).length = (planSeq t false).length + 1 := by
      rw [h2, List.length_cons]
    omega
  · intro p hp
    have hs := planSeq_mem_sorted t hnd true hp
    exact ⟨hs, nodup_of_sorted_lt hs⟩

theorem enumerate_counts_witness :
    ((⟨[(0, ⟨0, "r", none⟩), (1, ⟨1, "a", some 0⟩), (2, ⟨2, "b", some 1⟩)], 0⟩ :
        ToQ).validate = true ∧
      (⟨[(0, ⟨0, "r", none⟩), (1, ⟨1, "a", some 0⟩), (2, ⟨2, "b", some 1⟩)], 0⟩ :
        ToQ).keys.Nodup) ∧
    (∃ l l2 : List CollapsePlan,
      enumerate_collapse_plans
        ⟨[(0, ⟨0, "r", none⟩), (1, ⟨1, "a", some 0⟩), (2, ⟨2, "b", some 1⟩)], 0⟩ true =
        some l ∧
      enumerate_collapse_plans
        ⟨[(0, ⟨0, "r", none⟩), (1, ⟨1, "a", some 0⟩), (2, ⟨2, "b", some 1⟩)], 0⟩ false =
        some l2 ∧
      l.length = 2 ^ ((⟨[(0, ⟨0, "r", none⟩), (1, ⟨1, "a", some 0⟩), (2, ⟨2, "b", some 1⟩)],
          0⟩ : ToQ).keys.filter fun nid => !(nid == 0)).length ∧
      l2.length = 2 ^ ((⟨[(0, ⟨0, "r", none⟩), (1, ⟨1, "a", some 0⟩), (2, ⟨2, "b", some 1⟩)],
          0⟩ : ToQ).keys.filter fun nid => !(nid == 0)).length - 1 ∧
      l = ⟨[]⟩ :: l2 ∧
      l.Nodup ∧ l2.Nodup ∧
      (∀ p ∈ l, List.Sorted (· < ·) p.cut_edges ∧ p.cut_edges.Nodup)) :=
  ⟨⟨by decide, by decide⟩,
    enumerate_counts
      ⟨[(0, ⟨0, "r", none⟩), (1, ⟨1, "a", some 0⟩), (2, ⟨2, "b", some 1⟩)], 0⟩
      (by decide) (by decide)⟩

/-- C6 counterexample: on a valid ToQ whose `nodes` mapping is not keyed in
ascending order (here insertion order 1, 3, 2), `enumerate_collapse_plans`
does not emit the sequence described by the spec's algorithm (edges in
ascending order): the actual sequence is `[], [3], [2], [2,3]` while the
spec's ascending-edge order gives `[], [2], [3], [2,3]`. -/
theorem enumerate_order_counterexample :
    (⟨[(1, ⟨1, "r", none⟩), (3, ⟨3, "a", some 1⟩), (2, ⟨2, "b", some 1⟩)], 1⟩ :
      ToQ).validate = true ∧
    (⟨[(1, ⟨1, "r", none⟩), (3, ⟨3, "a", some 1⟩), (2, ⟨2, "b", some 1⟩)], 1⟩ :
      ToQ).keys.Nodup ∧
    enumerate_collapse_plans
      ⟨[(1, ⟨1, "r", none⟩), (3, ⟨3, "a", some 1⟩), (2, ⟨2, "b", some 1⟩)], 1⟩ true ≠
      some (enumerateSpecOrdered
        ⟨[(1, ⟨1, "r", none⟩), (3, ⟨3, "a", some 1⟩), (2, ⟨2, "b", some 1⟩)], 1⟩ true) := by
  refine ⟨by decide, by decide, ?_⟩
  decide

/-- C6 amended: `enumerate_collapse_plans` takes the edges in the iteration
order of the `nodes` mapping (not necessarily ascending), and emits, for
`r` from `0` to `k`, every `r`-combination of those edges in the
lexicographic order of the combination generator; the sequence is a pure
function of the input, hence deterministic and reproducible.  When the
`nodes` mapping happens to be keyed in ascending order, the result
coincides with the spec's described ascending-edge sequence
(`enumerateSpecOrdered`). -/
theorem enumerate_order_amended (t : ToQ) (hval : t.validate = true) (ie : Bool)
    (hsort : List.Sorted (· ≤ ·) t.keys) :
    enumerate_collapse_plans t ie = some (enumerateSpecOrdered t ie) := by
  rw [enumerate_eq hval, spec_eq_planSeq hsort]

theorem enumerate_order_amended_witness :
    ((⟨[(0, ⟨0, "r", none⟩), (1, ⟨1, "a", some 0⟩), (2, ⟨2, "b", some 1⟩)], 0⟩ :
        ToQ).validate = true ∧
      List.Sorted (· ≤ ·)
        (⟨[(0, ⟨0, "r", none⟩), (1, ⟨1, "a", some 0⟩), (2, ⟨2, "b", some 1⟩)], 0⟩ :
          ToQ).keys) ∧
    enumerate_collapse_plans
      ⟨[(0, ⟨0, "r", none⟩), (1, ⟨1, "a", some 0⟩), (2, ⟨2, "b", some 1⟩)], 0⟩ true =
      some (enumerateSpecOrdered
        ⟨[(0, ⟨0, "r", none⟩), (1, ⟨1, "a", some 0⟩), (2, ⟨2, "b", some 1⟩)], 0⟩ true) :=
  ⟨⟨by decide, by decide⟩,
    enumerate_order_amended
      ⟨[(0, ⟨0, "r", none⟩), (1, ⟨1, "a", some 0⟩), (2, ⟨2, "b", some 1⟩)], 0⟩
      (by decide) true (by decide)⟩

/-- C1: for every valid ToQ and every collapse plan over it, extraction
succeeds at every component root; the internal node sets extracted at
distinct component roots are pairwise disjoint; and the union over all
component roots of the extracted internal node ids together with the
extracted inputs is exactly the original node-id set. -/
theorem extract_partition (t : ToQ) (plan : CollapsePlan) (hval : t.validate = true)
    (hnd : t.keys.Nodup)
    (hplan : ∀ c ∈ plan.cut_edges, c ∈ t.keys ∧ c ≠ t.root_id) :
    (∀ r ∈ component_roots t plan, ∃ o, extract_open_toq t plan r = some o) ∧
    (∀ r1 ∈ component_roots t plan, ∀ r2 ∈ component_roots t plan, r1 ≠ r2 →
      ∀ o1 o2, extract_open_toq t plan r1 = some o1 →
        extract_open_toq t plan r2 = some o2 →
        ∀ v, v ∈ o1.toq.keys → v ∉ o2.toq.keys) ∧
    (∀ v, v ∈ t.keys ↔ ∃ r ∈ component_roots t plan, ∃ o,
      extract_open_toq t plan r = some o ∧ (v ∈ o.toq.keys ∨ v ∈ o.inputs)) := by
  have hbase : ∀ r ∈ component_roots t plan,
      (r = t.root_id ∨ r ∈ plan.cut_edges) ∧ r ∈ t.keys := by
    intro r hr
    rcases mem_component_roots.mp hr with hb | hb
    · exact ⟨Or.inl hb, hb ▸ validate_root_mem hval⟩
    · exact ⟨Or.inr hb, (hplan r hb).1⟩
  have hkeys : ∀ r ∈ component_roots t plan, ∀ o,
      extract_open_toq t plan r = some o →
      (∀ v, v ∈ o.toq.keys ↔ v ∈ t.keys ∧ CompRootRel t plan.cut_edges v r) ∧
      (∀ v, v ∈ o.inputs ↔ v ∈ (extractRun t plan.cut_edges r).2) := by
    intro r hr o ho
    obtain ⟨hb, hrk⟩ := hbase r hr
    rw [extract_some t plan hval hnd hrk hb] at ho
    cases ho
    obtain ⟨hchar, _, _, _⟩ := extractRun_char t plan.cut_edges hval hnd hrk hb
    constructor
    · intro v
      rw [show (⟨⟨(extractRun t plan.cut_edges r).1.map
          (fun n => (n, extractNodeD t (extractRun t plan.cut_edges r).1 n)), r⟩,
          sortAsc (dedupNat (extractRun t plan.cut_edges r).2), r⟩ :
          OpenToQ).toq.keys = (extractRun t plan.cut_edges r).1 from keys_of_map_self]
      exact hchar v
    · intro v
      show v ∈ sortAsc (dedupNat (extractRun t plan.cut_edges r).2) ↔ _
      rw [mem_sortAsc, mem_dedupNat]
  refine ⟨?_, ?_, ?_⟩
  · intro r hr
    obtain ⟨hb, hrk⟩ := hbase r hr
    exact ⟨_, extract_some t plan hval hnd hrk hb⟩
  · intro r1 hr1 r2 hr2 hne o1 o2 ho1 ho2 v hv1 hv2
    have h1 := ((hkeys r1 hr1 o1 ho1).1 v).mp hv1
    have h2 := ((hkeys r2 hr2 o2 ho2).1 v).mp hv2
    exact hne (rel_unique h1.2 h2.2)
  · intro v
    constructor
    · intro hv
      obtain ⟨x, hx⟩ := @comp_terminates t plan.cut_edges hval v hv
      rw [_component_root] at hx
      have hxroots : x ∈ component_roots t plan := by
        obtain ⟨hxk, hxor⟩ := aux_result hx
        rcases hxor with hxc | ⟨node, hl, hp⟩
        · exact mem_component_roots.mpr (Or.inr hxc)
        · exact mem_component_roots.mpr (Or.inl (validate_root_of_parent_none hval hl hp))
      obtain ⟨hb, hxk⟩ := hbase x hxroots
      refine ⟨x, hxroots, _, extract_some t plan hval hnd hxk hb, Or.inl ?_⟩
      exact ((hkeys x hxroots _ (extract_some t plan hval hnd hxk hb)).1 v).mpr
        ⟨hv, _, hx⟩
    · rintro ⟨r, hr, o, ho, hcase | hcase⟩
      · exact (((hkeys r hr o ho).1 v).mp hcase).1
      · have hf := ((hkeys r hr o ho).2 v).mp hcase
        obtain ⟨hb, hrk⟩ := hbase r hr
        obtain ⟨_, _, _, hfr⟩ := extractRun_char t plan.cut_edges hval hnd hrk hb
        obtain ⟨hvc, _⟩ := (hfr v).mp hf
        exact (hplan v hvc).1

theorem extract_partition_witness :
    (chain0.validate = true ∧ chain0.keys.Nodup ∧
      (∀ c ∈ ([1] : List Nat), c ∈ chain0.keys ∧ c ≠ chain0.root_id)) ∧
    ((∀ r ∈ component_roots chain0 ⟨[1]⟩, ∃ o, extract_open_toq chain0 ⟨[1]⟩ r = some o) ∧
      (∀ r1 ∈ component_roots chain0 ⟨[1]⟩, ∀ r2 ∈ component_roots chain0 ⟨[1]⟩, r1 ≠ r2 →
        ∀ o1 o2, extract_open_toq chain0 ⟨[1]⟩ r1 = some o1 →
          extract_open_toq chain0 ⟨[1]⟩ r2 = some o2 →
          ∀ v, v ∈ o1.toq.keys → v ∉ o2.toq.keys) ∧
      (∀ v, v ∈ chain0.keys ↔ ∃ r ∈ component_roots chain0 ⟨[1]⟩, ∃ o,
        extract_open_toq chain0 ⟨[1]⟩ r = some o ∧ (v ∈ o.toq.keys ∨ v ∈ o.inputs))) :=
  ⟨⟨by decide, by decide, by decide⟩,
    extract_partition chain0 ⟨[1]⟩ (by decide) (by decide) (by decide)⟩

/-- C7: for a valid ToQ, a plan over it, and a component root `r`, the
extracted `inputs` are exactly the cut-edge children (in the original tree)
of internal nodes, sorted ascending; every internal node is reachable from
`r` without crossing a cut edge; and the extracted parent pointer is `none`
exactly at the component root. -/
theorem extract_inputs_spec (t : ToQ) (plan : CollapsePlan) (hval : t.validate = true)
    (hnd : t.keys.Nodup)
    (hplan : ∀ c ∈ plan.cut_edges, c ∈ t.keys ∧ c ≠ t.root_id)
    {r : Nat} (hr : r ∈ component_roots t plan) :
    ∃ o, extract_open_toq t plan r = some o ∧
      (∀ v, v ∈ o.inputs ↔
        v ∈ plan.cut_edges ∧ ∃ u, u ∈ o.toq.keys ∧ v ∈ t.childrenOf u) ∧
      List.Sorted (· < ·) o.inputs ∧
      (∀ v ∈ o.toq.keys, ReachNoCut t plan.cut_edges r v) ∧
      (∀ v node, o.toq.lookup v = some node → (node.parent = none ↔ v = r)) := by
  have hb : r = t.root_id ∨ r ∈ plan.cut_edges := mem_component_roots.mp hr
  have hrk : r ∈ t.keys := by
    rcases hb with hb2 | hb2
    · exact hb2 ▸ validate_root_mem hval
    · exact (hplan r hb2).1
  obtain ⟨hchar, hndI, hrI, hfr⟩ := extractRun_char t plan.cut_edges hval hnd hrk hb
  obtain ⟨hrpar, hvpar⟩ := extract_built_parents t plan.cut_edges hval hnd hrk hb
  refine ⟨_, extract_some t plan hval hnd hrk hb, ?_, ?_, ?_, ?_⟩
  · intro v
    show v ∈ sortAsc (dedupNat (extractRun t plan.cut_edges r).2) ↔ _
    rw [mem_sortAsc, mem_dedupNat, hfr v]
    rw [show (⟨⟨(extractRun t plan.cut_edges r).1.map
        (fun n => (n, extractNodeD t (extractRun t plan.cut_edges r).1 n)), r⟩,
        sortAsc (dedupNat (extractRun t plan.cut_edges r).2), r⟩ :
        OpenToQ).toq.keys = (extractRun t plan.cut_edges r).1 from keys_of_map_self]
  · exact sortAsc_sorted_lt (nodup_dedupNat _)
  · intro v hv
    rw [show (⟨⟨(extractRun t plan.cut_edges r).1.map
        (fun n => (n, extractNodeD t (extractRun t plan.cut_edges r).1 n)), r⟩,
        sortAsc (dedupNat (extractRun t plan.cut_edges r).2), r⟩ :
        OpenToQ).toq.keys = (extractRun t plan.cut_edges r).1 from keys_of_map_self] at hv
    exact extractRun_sound_reach t plan.cut_edges hrk v hv
  · intro v node hlv
    have hlv2 : List.lookup v ((extractRun t plan.cut_edges r).1.map
        fun n => (n, extractNodeD t (extractRun t plan.cut_edges r).1 n)) = some node := hlv
    rw [lookup_map_self] at hlv2
    by_cases hvI : v ∈ (extractRun t plan.cut_edges r).1
    · rw [if_pos hvI] at hlv2
      cases hlv2
      constructor
      · intro hpn
        by_contra hvr
        obtain ⟨p, hpp, _, _, _⟩ := hvpar v hvI hvr
        rw [hpp] at hpn
        cases hpn
      · intro hvr
        subst hvr
        exact hrpar
    · rw [if_neg hvI] at hlv2
      cases hlv2

theorem extract_inputs_spec_witness :
    (chain0.validate = true ∧ chain0.keys.Nodup ∧
      (∀ c ∈ ([1] : List Nat), c ∈ chain0.keys ∧ c ≠ chain0.root_id) ∧
      (0 : Nat) ∈ component_roots chain0 ⟨[1]⟩) ∧
    (∃ o, extract_open_toq chain0 ⟨[1]⟩ 0 = some o ∧
      (∀ v, v ∈ o.inputs ↔
        v ∈ ([1] : List Nat) ∧ ∃ u, u ∈ o.toq.keys ∧ v ∈ chain0.childrenOf u) ∧
      List.Sorted (· < ·) o.inputs ∧
      (∀ v ∈ o.toq.keys, ReachNoCut chain0 [1] 0 v) ∧
      (∀ v node, o.toq.lookup v = some node → (node.parent = none ↔ v = 0))) :=
  ⟨⟨by decide, by decide, by decide, by decide⟩,
    extract_inputs_spec chain0 ⟨[1]⟩ (by decide) (by decide) (by decide) (by decide)⟩

/-- C2: for every valid ToQ, a plan whose cut edges are non-root nodes of
the tree, and a collapsed-question mapping covering all component roots,
`apply_collapse_plan` succeeds with a quotient of exactly `|roots|` nodes
that is itself a valid tree, in which every non-root quotient node's parent
is a component root, and with `removed_nodes` disjoint from the roots and
jointly covering the original node-id set. -/
theorem apply_collapse_guarantees (t : ToQ) (plan : CollapsePlan)
    (cqbr : List (Nat × String)) (hval : t.validate = true) (hnd : t.keys.Nodup)
    (hplan : ∀ c ∈ plan.cut_edges, c ∈ t.keys ∧ c ≠ t.root_id)
    (hq : ∀ r ∈ component_roots t plan, (List.lookup r cqbr).isSome) :
    ∃ c, apply_collapse_plan t plan cqbr = .ok c ∧
      c.toq.nodes.length = (component_roots t plan).length ∧
      c.toq.validate = true ∧ c.toq.keys.Nodup ∧
      (∀ v node, c.toq.lookup v = some node → v ≠ t.root_id →
        ∃ q, node.parent = some q ∧ q ∈ component_roots t plan) ∧
      (∀ v ∈ c.removed_nodes, v ∉ component_roots t plan) ∧
      (∀ v, v ∈ t.keys ↔ v ∈ c.removed_nodes ∨ v ∈ component_roots t plan) := by
  have hcutk : ∀ c ∈ plan.cut_edges, c ∈ t.keys := fun c hc => (hplan c hc).1
  have hcutr : t.root_id ∉ plan.cut_edges := fun hc => (hplan _ hc).2 rfl
  refine ⟨_, apply_ok t plan cqbr hval hcutk hcutr hq, ?_, ?_, ?_, ?_, ?_, ?_⟩
  · show (quotientNodes t plan cqbr).length = _
    exact List.length_map _ _
  · exact quot_validate t plan cqbr hval hcutk
  · show (ToQ.mk (quotientNodes t plan cqbr) t.root_id).keys.Nodup
    rw [show (ToQ.mk (quotientNodes t plan cqbr) t.root_id).keys =
      component_roots t plan from keys_of_map_self]
    exact component_roots_nodup t plan
  · intro v node hlv hvr
    have hlv2 : List.lookup v ((component_roots t plan).map
        fun r => (r, (⟨r, (List.lookup r cqbr).getD "",
          quotParent t plan.cut_edges r⟩ : ToQNode))) = some node := hlv
    rw [lookup_map_self] at hlv2
    by_cases hvI : v ∈ component_roots t plan
    · rw [if_pos hvI] at hlv2
      cases hlv2
      obtain ⟨node2, p, q, _, _, _, _, hqp, hqroots⟩ :=
        quot_built_parents t plan hval hcutk v hvI hvr
      exact ⟨q, hqp, hqroots⟩
    · rw [if_neg hvI] at hlv2
      cases hlv2
  · intro v hv
    show _
    have : v ∈ t.keys.filter fun k => !(component_roots t plan).contains k := hv
    have h2 := List.mem_filter.mp this
    intro hmem
    rw [contains_iff.mpr hmem] at h2
    exact absurd h2.2 (by simp)
  · intro v
    constructor
    · intro hv
      by_cases hmem : v ∈ component_roots t plan
      · exact Or.inr hmem
      · refine Or.inl ?_
        show v ∈ t.keys.filter fun k => !(component_roots t plan).contains k
        refine List.mem_filter.mpr ⟨hv, ?_⟩
        rw [Bool.not_eq_eq_eq_not, Bool.not_true, Bool.eq_false_iff]
        intro hc
        exact hmem (contains_iff.mp hc)
    · rintro (hv | hv)
      · have : v ∈ t.keys.filter fun k => !(component_roots t plan).contains k := hv
        exact (List.mem_filter.mp this).1
      · rcases mem_component_roots.mp hv with rfl | hv2
        · exact validate_root_mem hval
        · exact hcutk v hv2

theorem apply_collapse_guarantees_witness :
    (chain0.validate = true ∧ chain0.keys.Nodup ∧
      (∀ c ∈ ([1] : List Nat), c ∈ chain0.keys ∧ c ≠ chain0.root_id) ∧
      (∀ r ∈ component_roots chain0 ⟨[1]⟩,
        (List.lookup r [(0, "Q1"), (1, "Q2")]).isSome)) ∧
    (∃ c, apply_collapse_plan chain0 ⟨[1]⟩ [(0, "Q1"), (1, "Q2")] = .ok c ∧
      c.toq.nodes.length = (component_roots chain0 ⟨[1]⟩).length ∧
      c.toq.validate = true ∧ c.toq.keys.Nodup ∧
      (∀ v node, c.toq.lookup v = some node → v ≠ chain0.root_id →
        ∃ q, node.parent = some q ∧ q ∈ component_roots chain0 ⟨[1]⟩) ∧
      (∀ v ∈ c.removed_nodes, v ∉ component_roots chain0 ⟨[1]⟩) ∧
      (∀ v, v ∈ chain0.keys ↔ v ∈ c.removed_nodes ∨ v ∈ component_roots chain0 ⟨[1]⟩)) :=
  ⟨⟨by decide, by decide, by decide, by decide⟩,
    apply_collapse_guarantees chain0 ⟨[1]⟩ [(0, "Q1"), (1, "Q2")]
      (by decide) (by decide) (by decide) (by decide)⟩

/-- C9: applying the empty plan with a collapsed-question mapping that sends
the root to text `s` yields a quotient with exactly one node — the root,
with parent `none` and text `s` — and `removed_nodes` equal to the set of
all non-root node ids. -/
theorem apply_empty_plan (t : ToQ) (cqbr : List (Nat × String))
    (hval : t.validate = true) {s : String}
    (hs : List.lookup t.root_id cqbr = some s) :
    ∃ c, apply_collapse_plan t ⟨[]⟩ cqbr = .ok c ∧
      c.toq.nodes = [(t.root_id, ⟨t.root_id, s, none⟩)] ∧
      (∀ v, v ∈ c.removed_nodes ↔ v ∈ t.keys ∧ v ≠ t.root_id) := by
  have hq : ∀ r ∈ component_roots t ⟨[]⟩, (List.lookup r cqbr).isSome := by
    intro r hr
    rw [component_roots_nil] at hr
    rw [List.mem_singleton] at hr
    subst hr
    rw [hs]
    rfl
  refine ⟨_, apply_ok t ⟨[]⟩ cqbr hval (by intro c hc; cases hc) (by intro h; cases h) hq,
    ?_, ?_⟩
  · show quotientNodes t ⟨[]⟩ cqbr = _
    rw [quotientNodes, component_roots_nil, List.map_singleton, hs, quotParent_root]
    rfl
  · intro v
    show v ∈ t.keys.filter (fun k => !(component_roots t ⟨[]⟩).contains k) ↔ _
    rw [List.mem_filter, component_roots_nil]
    constructor
    · rintro ⟨hk, hb⟩
      refine ⟨hk, fun hvr => ?_⟩
      subst hvr
      simp at hb
    · rintro ⟨hk, hvr⟩
      refine ⟨hk, ?_⟩
      simp [hvr]

theorem apply_empty_plan_witness :
    (chain0.validate = true ∧
      List.lookup chain0.root_id [(0, "Q")] = some "Q") ∧
    (∃ c, apply_collapse_plan chain0 ⟨[]⟩ [(0, "Q")] = .ok c ∧
      c.toq.nodes = [(chain0.root_id, ⟨chain0.root_id, "Q", none⟩)] ∧
      (∀ v, v ∈ c.removed_nodes ↔ v ∈ chain0.keys ∧ v ≠ chain0.root_id)) :=
  ⟨⟨by decide, by decide⟩,
    apply_empty_plan chain0 [(0, "Q")] (by decide) (by decide)⟩

/-- C4: on a valid tree, `apply_collapse_plan` fails with `invalidCut`
whenever some cut edge is the root, absent from the tree, or has
`parent = none`; and fails with `missingCollapsedQuestion` whenever the
cut edges are well formed but `collapsed_question_by_root` lacks an entry
for some component root.  In either case the result is an error, so no
`CollapsedToQ` is produced. -/
theorem apply_collapse_errors (t : ToQ) (plan : CollapsePlan)
    (cqbr : List (Nat × String)) (hval : t.validate = true) :
    ((t.root_id ∈ plan.cut_edges ∨ (∃ c ∈ plan.cut_edges, c ∉ t.keys) ∨
      (∃ c ∈ plan.cut_edges, ∃ node, t.lookup c = some node ∧ node.parent = none)) →
      apply_collapse_plan t plan cqbr = .error .invalidCut) ∧
    ((∀ c ∈ plan.cut_edges, c ∈ t.keys ∧ c ≠ t.root_id) →
      (∃ r ∈ component_roots t plan, List.lookup r cqbr = none) →
      apply_collapse_plan t plan cqbr = .error .missingCollapsedQuestion) := by
  constructor
  · intro hbad
    exact apply_invalid_cut t plan cqbr hval hbad
  · intro hplan hmiss
    exact apply_missing t plan cqbr hval (fun c hc => (hplan c hc).1)
      (fun hc => (hplan _ hc).2 rfl) hmiss

theorem apply_collapse_errors_witness :
    (chain0.validate = true ∧ chain0.validate = true) ∧
    apply_collapse_plan chain0 ⟨[0]⟩ [(0, "Q")] = .error .invalidCut ∧
    apply_collapse_plan chain0 ⟨[1]⟩ [(0, "Q")] = .error .missingCollapsedQuestion :=
  ⟨⟨by decide, by decide⟩,
    (apply_collapse_errors chain0 ⟨[0]⟩ [(0, "Q")] (by decide)).1
      (Or.inl (by decide)),
    (apply_collapse_errors chain0 ⟨[1]⟩ [(0, "Q")] (by decide)).2
      (by decide) ⟨1, by decide, by decide⟩⟩

/-- C10: `agreement_rate` returns `0` when the report has no runs (it never
fails on an empty report), and otherwise returns the modal answer's count
divided by the total number of runs — a value strictly greater than `0`
and at most `1`.  The modal count is the maximum of the distribution's
counts and is attained by some entry of the distribution. -/
theorem agreement_rate_spec (report : ConsistencyReport) (u : Bool) :
    (report.runs = [] → agreement_rate report u = 0) ∧
    (report.runs ≠ [] →
      ((answer_distribution report u).map Prod.snd).foldr Nat.max 0 ∈
        (answer_distribution report u).map Prod.snd ∧
      agreement_rate report u =
        ((((answer_distribution report u).map Prod.snd).foldr Nat.max 0 : Nat) : Rat) /
          ((report.runs.length : Nat) : Rat) ∧
      0 < agreement_rate report u ∧ agreement_rate report u ≤ 1) := by
  constructor
  · intro hruns
    have hd : answer_distribution report u = [] := by
      rw [answer_distribution, hruns]
      simp [firstKeys]
    rw [agreement_rate, hd]
    rfl
  · intro hruns
    have hvals : (answer_distribution report u).map Prod.snd =
        (firstKeys (report.runs.map (runKey u))).map
          fun k => (report.runs.map (runKey u)).count k := by
      rw [answer_distribution]
      rw [List.map_map]
      apply List.map_congr_left
      intro k _
      rfl
    have hsum : ((answer_distribution report u).map Prod.snd).sum =
        report.runs.length := by
      rw [hvals, sum_counts_firstKeys, List.length_map]
    have hpos : ∀ c ∈ (answer_distribution report u).map Prod.snd, 1 ≤ c := by
      intro c hc
      rw [hvals] at hc
      obtain ⟨k, hk, rfl⟩ := List.mem_map.mp hc
      have hkmem : k ∈ report.runs.map (runKey u) := mem_firstKeys.mp hk
      exact List.count_pos_iff.mpr hkmem
    have hvne : (answer_distribution report u).map Prod.snd ≠ [] := by
      intro hnil
      have := hsum
      rw [hnil] at this
      have hlen : 0 < report.runs.length := List.length_pos.mpr hruns
      simp at this
      omega
    obtain ⟨c0, hc0⟩ : ∃ c0, c0 ∈ (answer_distribution report u).map Prod.snd := by
      cases hd : (answer_distribution report u).map Prod.snd with
      | nil => exact absurd hd hvne
      | cons a as => exact ⟨a, hd ▸ List.mem_cons_self a as⟩
    have hm1 : 1 ≤ ((answer_distribution report u).map Prod.snd).foldr Nat.max 0 :=
      le_trans (hpos c0 hc0) (foldr_max_ge hc0)
    have hmmem : ((answer_distribution report u).map Prod.snd).foldr Nat.max 0 ∈
        (answer_distribution report u).map Prod.snd := by
      rcases foldr_max_mem_or ((answer_distribution report u).map Prod.snd) with h | h
      · omega
      · exact h
    have hmle : ((answer_distribution report u).map Prod.snd).foldr Nat.max 0 ≤
        report.runs.length := by
      rw [← hsum]
      exact mem_le_sum hmmem
    have hlen : 0 < report.runs.length := List.length_pos.mpr hruns
    have hn0 : (((answer_distribution report u).map Prod.snd).sum == 0) = false := by
      rw [hsum, beq_eq_false_iff_ne]
      omega
    have hrate : agreement_rate report u =
        ((((answer_distribution report u).map Prod.snd).foldr Nat.max 0 : Nat) : Rat) /
          ((report.runs.length : Nat) : Rat) := by
      rw [agreement_rate]
      simp only [hn0, Bool.false_eq_true, if_false]
      rw [hsum]
    refine ⟨hmmem, hrate, ?_, ?_⟩
    · rw [hrate]
      apply div_pos
      · exact_mod_cast hm1
      · exact_mod_cast hlen
    · rw [hrate]
      rw [div_le_one (by exact_mod_cast hlen)]
      exact_mod_cast hmle

theorem agreement_rate_spec_witness :
    ((⟨[⟨⟨[]⟩, ⟨"yes"⟩, none⟩, ⟨⟨[1]⟩, ⟨"yes"⟩, some "yes"⟩, ⟨⟨[2]⟩, ⟨"no"⟩, none⟩]⟩ :
        ConsistencyReport).runs ≠ []) ∧
    (((answer_distribution
        ⟨[⟨⟨[]⟩, ⟨"yes"⟩, none⟩, ⟨⟨[1]⟩, ⟨"yes"⟩, some "yes"⟩, ⟨⟨[2]⟩, ⟨"no"⟩, none⟩]⟩
        true).map Prod.snd).foldr Nat.max 0 ∈
      (answer_distribution
        ⟨[⟨⟨[]⟩, ⟨"yes"⟩, none⟩, ⟨⟨[1]⟩, ⟨"yes"⟩, some "yes"⟩, ⟨⟨[2]⟩, ⟨"no"⟩, none⟩]⟩
        true).map Prod.snd ∧
      agreement_rate
        ⟨[⟨⟨[]⟩, ⟨"yes"⟩, none⟩, ⟨⟨[1]⟩, ⟨"yes"⟩, some "yes"⟩, ⟨⟨[2]⟩, ⟨"no"⟩, none⟩]⟩
        true =
        ((((answer_distribution
          ⟨[⟨⟨[]⟩, ⟨"yes"⟩, none⟩, ⟨⟨[1]⟩, ⟨"yes"⟩, some "yes"⟩, ⟨⟨[2]⟩, ⟨"no"⟩, none⟩]⟩
          true).map Prod.snd).foldr Nat.max 0 : Nat) : Rat) /
          (((⟨[⟨⟨[]⟩, ⟨"yes"⟩, none⟩, ⟨⟨[1]⟩, ⟨"yes"⟩, some "yes"⟩, ⟨⟨[2]⟩, ⟨"no"⟩, none⟩]⟩ :
            ConsistencyReport).runs.length : Nat) : Rat) ∧
      0 < agreement_rate
        ⟨[⟨⟨[]⟩, ⟨"yes"⟩, none⟩, ⟨⟨[1]⟩, ⟨"yes"⟩, some "yes"⟩, ⟨⟨[2]⟩, ⟨"no"⟩, none⟩]⟩
        true ∧
      agreement_rate
        ⟨[⟨⟨[]⟩, ⟨"yes"⟩, none⟩, ⟨⟨[1]⟩, ⟨"yes"⟩, some "yes"⟩, ⟨⟨[2]⟩, ⟨"no"⟩, none⟩]⟩
        true ≤ 1) :=
  ⟨by decide,
    (agreement_rate_spec
      ⟨[⟨⟨[]⟩, ⟨"yes"⟩, none⟩, ⟨⟨[1]⟩, ⟨"yes"⟩, some "yes"⟩, ⟨⟨[2]⟩, ⟨"no"⟩, none⟩]⟩
      true).2 (by decide)⟩
